import Mathlib

/-!
Verification of the core of `crux-cpp`: the iterative Tarjan SCC
decomposition (`tarjan_sccs` in `src/crux_cpp/topo.py` and, an identical
copy up to one temporary variable, in `src/pysrc/summarize.py`), the call
graph builder, and the enrichment driver loop of `src/pysrc/summarize.py`.

The Python dictionaries are modelled as association lists (`List (V × β)`)
with first-binding lookup; the Python `set` `on_stack` as a `Finset`;
the dictionary lookups that can raise `KeyError`, the pop of an empty list,
and the fuel of the iterative loop are made explicit through `Except`.
-/

namespace CruxCpp

section TarjanDefs

variable {V : Type} [DecidableEq V]

/-- A directed graph as Python builds it: a dict mapping each vertex to the
list of its successors, modelled as an association list in insertion order. -/
abbrev Graph (V : Type) := List (V × List V)

/-- Lookup of a key in an association list (Python `d[k]`, first binding). -/
def alookup : List (V × α) → V → Option α
  | [], _ => none
  | (k, a) :: rest, v => if v = k then some a else alookup rest v

/-- The keys of the graph dict, in iteration order. -/
def gkeys (G : Graph V) : List V := G.map Prod.fst

/-- One directed edge of the graph: `w` occurs in the adjacency list of `v`. -/
def EdgeG (G : Graph V) (v w : V) : Prop :=
  ∃ adj, alookup G v = some adj ∧ w ∈ adj

/-- Reachability along edges of `G` (reflexive-transitive closure). -/
def Reaches (G : Graph V) : V → V → Prop :=
  Relation.ReflTransGen (EdgeG G)

/-- A closed walk of at least one edge through a vertex: the vertex
participates in a cycle of the graph. -/
def OnCycle (G : Graph V) (v : V) : Prop :=
  Relation.TransGen (EdgeG G) v v

/-- The graph is closed: every identifier in an adjacency list is a key. -/
def Closed (G : Graph V) : Prop :=
  ∀ p ∈ G, ∀ w ∈ p.2, w ∈ gkeys G

/-- Mutable state of the Python `tarjan_sccs`: the fresh-index counter, the
Tarjan stack (head = Python's `stack[-1]`), the `on_stack` set, the `index`
and `lowlink` dicts, and the accumulated list of output components. -/
structure St (V : Type) where
  counter : Nat
  stack : List V
  onStack : Finset V
  index : V → Option Nat
  lowlink : V → Option Nat
  sccs : List (List V)

/-- Dict update `d[k] = n`. -/
def upd (f : V → Option Nat) (k : V) (n : Nat) : V → Option Nat :=
  fun x => if x = k then some n else f x

/-- Errors the Python code could raise, plus fuel exhaustion of the model. -/
inductive TjErr : Type where
  | keyError : TjErr
  | popEmpty : TjErr
  | outOfFuel : TjErr
deriving DecidableEq

/-- The component-collection loop: pop from the Tarjan stack, appending to
the component, until the popped element is `v` (`while True: w = stack.pop()
... if w == v: break`).  Returns the collected component together with the
remaining stack, or `none` when the stack runs out (the `IndexError` case). -/
def popScc (v : V) : List V → Option (List V × List V)
  | [] => none
  | w :: rest =>
    if w = v then some ([w], rest)
    else
      match popScc v rest with
      | some (scc, rest2) => some (w :: scc, rest2)
      | none => none

/-- Discard each element of `l` from the set (the `on_stack.discard(w)` calls
made by the component-collection loop). -/
def eraseAll (s : Finset V) (l : List V) : Finset V :=
  l.foldl Finset.erase s

/-- On `StopIteration` with a non-empty remaining work stack, the Python code
executes `lowlink[parent] = min(lowlink[parent], lowlink[v])` for the parent
frame.  Missing dict entries raise `KeyError`. -/
def parentUpd (st : St V) (v : V) : List (V × List V) → Except TjErr (St V)
  | [] => .ok st
  | (p, _) :: _ =>
    match st.lowlink p, st.lowlink v with
    | some lp, some lv => .ok { st with lowlink := upd st.lowlink p (min lp lv) }
    | _, _ => .error .keyError

/-- After the parent update, the Python code tests `lowlink[v] == index[v]`
and, when they are equal, pops one component off the Tarjan stack. -/
def popStep (v : V) (st1 : St V) : Except TjErr (St V) :=
  match st1.lowlink v, st1.index v with
  | some lv, some iv =>
    if lv = iv then
      match popScc v st1.stack with
      | some (scc, rest) =>
          .ok { st1 with stack := rest, onStack := eraseAll st1.onStack scc,
                         sccs := st1.sccs ++ [scc] }
      | none => .error .popEmpty
    else .ok st1
  | _, _ => .error .keyError

/-- The inner `while work:` loop of `tarjan_sccs`.  A work frame `(v, rem)`
is Python's `(node, iterator over its neighbours)` with `rem` the neighbours
not yet yielded.  One unit of fuel is spent per loop iteration. -/
def tarjanRun (G : Graph V) : Nat → List (V × List V) → St V → Except TjErr (St V)
  | _, [], st => .ok st
  | 0, _ :: _, _ => .error .outOfFuel
  | fuel + 1, (v, rem) :: ws, st =>
    match rem with
    | [] =>
      match parentUpd st v ws with
      | .ok st1 =>
        match popStep v st1 with
        | .ok st2 => tarjanRun G fuel ws st2
        | .error e => .error e
      | .error e => .error e
    | w :: rest =>
      match st.index w with
      | none =>
        let st1 : St V :=
          { st with index := upd st.index w st.counter,
                    lowlink := upd st.lowlink w st.counter,
                    counter := st.counter + 1,
                    stack := w :: st.stack,
                    onStack := insert w st.onStack }
        match alookup G w with
        | some adjw => tarjanRun G fuel ((w, adjw) :: (v, rest) :: ws) st1
        | none => .error .keyError
      | some iw =>
        if w ∈ st.onStack then
          match st.lowlink v with
          | some lv =>
              tarjanRun G fuel ((v, rest) :: ws)
                { st with lowlink := upd st.lowlink v (min lv iw) }
          | none => .error .keyError
        else tarjanRun G fuel ((v, rest) :: ws) st

/-- The outer `for root in graph:` loop: skip visited roots, otherwise assign
the root's index, push it, and run the inner loop on the singleton work
stack `[(root, iter(graph[root]))]`. -/
def tarjanOuter (G : Graph V) (fuel : Nat) :
    List (V × List V) → St V → Except TjErr (St V)
  | [], st => .ok st
  | (root, _) :: rest, st =>
    match st.index root with
    | some _ => tarjanOuter G fuel rest st
    | none =>
      let st1 : St V :=
        { st with index := upd st.index root st.counter,
                  lowlink := upd st.lowlink root st.counter,
                  counter := st.counter + 1,
                  stack := root :: st.stack,
                  onStack := insert root st.onStack }
      match alookup G root with
      | some adjr =>
        match tarjanRun G fuel [(root, adjr)] st1 with
        | .ok st2 => tarjanOuter G fuel rest st2
        | .error e => .error e
      | none => .error .keyError

/-- The largest adjacency-list length occurring in the graph. -/
def maxAdjLen (G : Graph V) : Nat :=
  G.foldr (fun p m => max p.2.length m) 0

/-- Fuel that provably suffices for each phase of the inner loop. -/
def fuelFor (G : Graph V) : Nat := (maxAdjLen G + 2) * (G.length + 1)

/-- The initial state: empty stack and dicts, counter 0, no components. -/
def st0 : St V := ⟨0, [], ∅, fun _ => none, fun _ => none, []⟩

/-- The Python function `tarjan_sccs` (`src/crux_cpp/topo.py` lines 20-71 and
`src/pysrc/summarize.py` lines 48-92, identical up to a temporary variable):
return the strongly connected components of `graph` in callee-first
topological order.  `Except` makes the possible `KeyError`/`IndexError` of
the Python lookups, and the fuel of the model, explicit. -/
def tarjan_sccs (G : Graph V) : Except TjErr (List (List V)) :=
  (tarjanOuter G (fuelFor G) G st0).map St.sccs

/-- Total index read (defaults to 0 off the dict; used only under
definedness facts). -/
def St.ix (st : St V) (x : V) : Nat := (st.index x).getD 0

/-- Total lowlink read (defaults to 0 off the dict). -/
def St.lo (st : St V) (x : V) : Nat := (st.lowlink x).getD 0

/-- The vertex has been assigned an index. -/
def St.vis (st : St V) (x : V) : Prop := (st.index x).isSome

end TarjanDefs

section TarjanBasic

variable {V : Type} [DecidableEq V]

theorem alookup_mem {G : List (V × α)} {v : V} {a : α}
    (h : alookup G v = some a) : (v, a) ∈ G := by
  induction G with
  | nil => simp [alookup] at h
  | cons p rest ih =>
    obtain ⟨k, b⟩ := p
    by_cases hv : v = k
    · subst hv
      simp [alookup] at h
      simp [h]
    · simp [alookup, hv] at h
      exact List.mem_cons_of_mem _ (ih h)

theorem alookup_isSome_of_mem {G : List (V × α)} {v : V}
    (h : v ∈ G.map Prod.fst) : (alookup G v).isSome := by
  induction G with
  | nil => simp at h
  | cons p rest ih =>
    obtain ⟨k, b⟩ := p
    by_cases hv : v = k
    · subst hv; simp [alookup]
    · simp only [List.map_cons] at h
      have h' : v ∈ rest.map Prod.fst := by
        rcases List.mem_cons.1 h with h1 | h1
        · exact absurd h1 hv
        · exact h1
      simpa [alookup, hv] using ih h'

theorem mem_gkeys_of_alookup {G : Graph V} {v : V} {a : List V}
    (h : alookup G v = some a) : v ∈ gkeys G := by
  have := alookup_mem h
  exact List.mem_map.2 ⟨(v, a), this, rfl⟩

theorem alookup_length_le_maxAdjLen {G : Graph V} {v : V} {a : List V}
    (h : alookup G v = some a) : a.length ≤ maxAdjLen G := by
  induction G with
  | nil => simp [alookup] at h
  | cons p rest ih =>
    obtain ⟨k, b⟩ := p
    by_cases hv : v = k
    · subst hv
      simp [alookup] at h
      subst h
      simp [maxAdjLen]
    · simp [alookup, hv] at h
      have hle := ih h
      simp only [maxAdjLen, List.foldr_cons]
      exact le_trans hle (le_max_right _ _)

theorem upd_getD_self (f : V → Option Nat) (k : V) (n : Nat) :
    (upd f k n k).getD 0 = n := by simp [upd]

theorem upd_ne (f : V → Option Nat) {k x : V} (n : Nat) (h : x ≠ k) :
    upd f k n x = f x := by simp [upd, h]

/-- Splitting a list at the first occurrence of an element. -/
theorem mem_split_first {a : V} {l : List V} (h : a ∈ l) :
    ∃ s t, l = s ++ a :: t ∧ a ∉ s := by
  induction l with
  | nil => simp at h
  | cons b rest ih =>
    by_cases hb : a = b
    · exact ⟨[], rest, by simp [hb], by simp⟩
    · have : a ∈ rest := by
        rcases List.mem_cons.1 h with h1 | h1
        · exact absurd h1 hb
        · exact h1
      obtain ⟨s, t, hst, hns⟩ := ih this
      exact ⟨b :: s, t, by simp [hst], by simp [hns, hb]⟩

theorem popScc_spec {v : V} :
    ∀ (pre rest : List V), v ∉ pre →
      popScc v (pre ++ v :: rest) = some (pre ++ [v], rest) := by
  intro pre
  induction pre with
  | nil => intro rest _; simp [popScc]
  | cons b s ih =>
    intro rest hnotin
    have hbv : ¬(b = v) := by
      intro he; exact hnotin (by simp [he])
    have hvs : v ∉ s := fun hv => hnotin (by simp [hv])
    have hrec := ih rest hvs
    simp only [List.cons_append, popScc, if_neg hbv]
    simp only [List.append_eq, hrec]

end TarjanBasic

section TarjanInv

variable {V : Type} [DecidableEq V]

/-- The loop invariant of the iterative Tarjan machine, tied to the current
work stack `work` and state `st`.  `work.map Prod.fst` is the DFS path of
vertices whose neighbour iterators are still open. -/
structure Inv (G : Graph V) (work : List (V × List V)) (st : St V) : Prop where
  counter_gt : ∀ x, st.vis x → st.ix x < st.counter
  ix_inj : ∀ x y, st.vis x → st.vis y → st.ix x = st.ix y → x = y
  vis_low : ∀ x, (st.lowlink x).isSome ↔ st.vis x
  vis_keys : ∀ x, st.vis x → x ∈ gkeys G
  on_eq : ∀ x, x ∈ st.onStack ↔ x ∈ st.stack
  stk_vis : ∀ x ∈ st.stack, st.vis x
  stk_sorted : st.stack.Pairwise (fun a b => st.ix b < st.ix a)
  stk_split : ∀ x, st.vis x → x ∈ st.stack ∨ x ∈ st.sccs.flatten
  emit_vis : ∀ x ∈ st.sccs.flatten, st.vis x
  emit_off : ∀ x ∈ st.sccs.flatten, x ∉ st.stack
  join_nodup : st.sccs.flatten.Nodup
  comp_ne : ∀ C ∈ st.sccs, C ≠ []
  low_le : ∀ x, st.vis x → st.lo x ≤ st.ix x
  low_reach : ∀ x ∈ st.stack, ∃ y ∈ st.stack, st.ix y = st.lo x ∧ Reaches G x y
  reach_up : ∀ x ∈ st.stack, ∀ y ∈ st.stack, st.ix x ≤ st.ix y → Reaches G x y
  wk_stk : ∀ x ∈ work.map Prod.fst, x ∈ st.stack
  wk_sorted : (work.map Prod.fst).Pairwise (fun a b => st.ix b < st.ix a)
  wk_rem : ∀ f ∈ work, ∃ adj, alookup G f.1 = some adj ∧ f.2 <:+ adj
  wk_edge : (work.map Prod.fst).Chain' (fun a b => EdgeG G b a)
  wk_bot : ∀ x, (work.map Prod.fst).getLast? = some x →
    ∀ z ∈ st.stack, st.ix x ≤ st.ix z
  fin_low : ∀ x ∈ st.stack, x ∉ work.map Prod.fst → st.lo x < st.ix x
  fin_chain : ∀ x ∈ st.stack, x ∉ work.map Prod.fst →
    ∃ f ∈ work.map Prod.fst, st.ix f < st.ix x ∧ st.lo f ≤ st.lo x ∧
      ∀ g ∈ work.map Prod.fst, st.ix g < st.ix x → st.ix g ≤ st.ix f
  proc_frame : ∀ v rem, (v, rem) ∈ work → ∀ adj pre, alookup G v = some adj →
    adj = pre ++ rem → ∀ y ∈ pre, st.vis y ∧ (y ∈ st.stack → st.lo v ≤ st.ix y)
  proc_done : ∀ x, st.vis x → x ∉ work.map Prod.fst →
    ∀ adj, alookup G x = some adj →
      ∀ y ∈ adj, st.vis y ∧ (y ∈ st.stack → st.lo x ≤ st.ix y)
  emit_topo : ∀ i (hi : i < st.sccs.length), ∀ x ∈ st.sccs.get ⟨i, hi⟩,
    ∀ adj, alookup G x = some adj → ∀ y ∈ adj,
      ∃ j, ∃ hj : j < st.sccs.length, j ≤ i ∧ y ∈ st.sccs.get ⟨j, hj⟩
  emit_reach : ∀ C ∈ st.sccs, ∀ x ∈ C, ∀ y ∈ C, Reaches G x y

theorem Inv.stk_low_isSome {G : Graph V} {work : List (V × List V)} {st : St V}
    (h : Inv G work st) {x : V} (hx : x ∈ st.stack) :
    (st.lowlink x).isSome :=
  (h.vis_low x).2 (h.stk_vis x hx)

theorem Inv.init (G : Graph V) : Inv G [] (st0 : St V) := by
  refine ⟨?_, ?_, ?_, ?_, ?_, ?_, ?_, ?_, ?_, ?_, ?_, ?_, ?_, ?_, ?_, ?_,
    ?_, ?_, ?_, ?_, ?_, ?_, ?_, ?_, ?_, ?_⟩ <;>
    simp [st0, St.vis, St.ix, St.lo]

/-- Every frame vertex has index at most that of the head frame. -/
theorem Inv.frame_ix_le_head {G : Graph V} {v : V} {rem : List V}
    {ws : List (V × List V)} {st : St V} (h : Inv G ((v, rem) :: ws) st) :
    ∀ x ∈ ((v, rem) :: ws).map Prod.fst, st.ix x ≤ st.ix v := by
  intro x hx
  simp only [List.map_cons] at hx
  rcases List.mem_cons.1 hx with h1 | h1
  · exact le_of_eq (by rw [h1])
  · have hp := h.wk_sorted
    simp only [List.map_cons] at hp
    exact le_of_lt ((List.pairwise_cons.1 hp).1 x h1)

/-- Any vertex on the Tarjan stack reaches the head frame vertex. -/
theorem Inv.stack_reaches_head {G : Graph V} {v : V} {rem : List V}
    {ws : List (V × List V)} {st : St V} (h : Inv G ((v, rem) :: ws) st) :
    ∀ x ∈ st.stack, Reaches G x v := by
  have hv : v ∈ st.stack := h.wk_stk v (by simp)
  have main : ∀ n, ∀ x ∈ st.stack, st.ix x = n → Reaches G x v := by
    intro n
    induction n using Nat.strong_induction_on with
    | _ n ih =>
      intro x hx hxn
      by_cases hle : st.ix x ≤ st.ix v
      · exact h.reach_up x hx v hv hle
      · push_neg at hle
        have hxnf : x ∉ ((v, rem) :: ws).map Prod.fst := by
          intro hmem
          exact absurd (h.frame_ix_le_head x hmem) (not_le.2 hle)
        have hlt := h.fin_low x hx hxnf
        obtain ⟨y, hy, hyix, hreach⟩ := h.low_reach x hx
        have hyv : Reaches G y v := by
          refine ih (st.lo x) ?_ y hy hyix
          omega
        exact hreach.trans hyv
  intro x hx
  exact main (st.ix x) x hx rfl

/-- At a pop step whose lowlink equals its index, every stack vertex with
index at least that of the popped frame vertex reaches it. -/
theorem Inv.seg_reaches_root {G : Graph V} {v : V}
    {ws : List (V × List V)} {st : St V} (h : Inv G ((v, []) :: ws) st)
    (hroot : st.lo v = st.ix v) :
    ∀ x ∈ st.stack, st.ix v ≤ st.ix x → Reaches G x v := by
  have hv : v ∈ st.stack := h.wk_stk v (by simp)
  have main : ∀ n, ∀ x ∈ st.stack, st.ix x = n → st.ix v ≤ st.ix x →
      Reaches G x v := by
    intro n
    induction n using Nat.strong_induction_on with
    | _ n ih =>
      intro x hx hxn hge
      rcases eq_or_lt_of_le hge with heq | hlt
      · have : x = v :=
          h.ix_inj x v (h.stk_vis x hx) (h.stk_vis v hv) heq.symm
        exact this ▸ Relation.ReflTransGen.refl
      · have hxnf : x ∉ ((v, []) :: ws).map Prod.fst := by
          intro hmem
          exact absurd (h.frame_ix_le_head x hmem) (not_le.2 hlt)
        obtain ⟨f, hf, hfix, hflo, hfmax⟩ := h.fin_chain x hx hxnf
        have hvf : v ∈ ((v, ([] : List V)) :: ws).map Prod.fst := by simp
        have h1 : st.ix v ≤ st.ix f := hfmax v hvf hlt
        have h2 : st.ix f ≤ st.ix v := h.frame_ix_le_head f hf
        have hfv : f = v :=
          h.ix_inj f v (h.stk_vis f (h.wk_stk f hf)) (h.stk_vis v hv)
            (le_antisymm h2 h1)
        have hlov : st.ix v ≤ st.lo x := by
          rw [← hroot]; exact hfv ▸ hflo
        have hlow := h.fin_low x hx hxnf
        obtain ⟨y, hy, hyix, hreach⟩ := h.low_reach x hx
        have hyv : Reaches G y v := by
          refine ih (st.lo x) (by omega) y hy hyix (by omega)
        exact hreach.trans hyv
  intro x hx hge
  exact main (st.ix x) x hx rfl hge

theorem pre_eq_of_append {t pre rest : List V} {w : V}
    (h : t ++ w :: rest = pre ++ rest) : pre = t ++ [w] := by
  have h2 : (t ++ [w]) ++ rest = pre ++ rest := by simpa using h
  exact (List.append_cancel_right h2).symm

/-- Preservation: the head frame yields an already-visited neighbour that is
not on the stack; the state is unchanged and the iterator advances. -/
theorem Inv.advance {G : Graph V} {v w : V} {rest : List V}
    {ws : List (V × List V)} {st : St V}
    (h : Inv G ((v, w :: rest) :: ws) st)
    (hvis : st.vis w) (hoff : w ∉ st.onStack) :
    Inv G ((v, rest) :: ws) st := by
  refine ⟨h.counter_gt, h.ix_inj, h.vis_low, h.vis_keys, h.on_eq, h.stk_vis,
    h.stk_sorted, h.stk_split, h.emit_vis, h.emit_off, h.join_nodup,
    h.comp_ne, h.low_le, h.low_reach, h.reach_up, h.wk_stk, h.wk_sorted,
    ?_, h.wk_edge, h.wk_bot, h.fin_low, h.fin_chain, ?_, h.proc_done,
    h.emit_topo, h.emit_reach⟩
  · intro f hf
    rcases List.mem_cons.1 hf with h1 | h1
    · subst h1
      obtain ⟨adj, hadj, hsuf⟩ := h.wk_rem (v, w :: rest) (by simp)
      exact ⟨adj, hadj, (List.suffix_cons w rest).trans hsuf⟩
    · exact h.wk_rem f (List.mem_cons_of_mem _ h1)
  · intro v' rem' hmem adj pre hadj hdecomp y hy
    rcases List.mem_cons.1 hmem with h1 | h1
    · injection h1 with e1 e2
      subst e1; subst e2
      obtain ⟨adj0, hadj0, hsuf⟩ := h.wk_rem (v', w :: rem') (by simp)
      rw [hadj0] at hadj
      injection hadj with e3
      subst e3
      obtain ⟨t, ht⟩ := hsuf
      have hpre : pre = t ++ [w] := pre_eq_of_append (ht.trans hdecomp)
      subst hpre
      rcases List.mem_append.1 hy with hyt | hyw
      · exact h.proc_frame v' (w :: rem') (by simp) adj0 t hadj0 ht.symm y hyt
      · have hyw2 : y = w := by simpa using hyw
        subst hyw2
        refine ⟨hvis, fun hstk => ?_⟩
        exact absurd ((h.on_eq y).2 hstk) hoff
    · exact h.proc_frame v' rem' (List.mem_cons_of_mem _ h1) adj pre hadj hdecomp y hy

/-- Preservation: the head frame yields an already-visited neighbour `w` that
is on the stack; `lowlink[v] = min(lowlink[v], index[w])` is executed. -/
theorem Inv.minupd {G : Graph V} {v w : V} {rest : List V}
    {ws : List (V × List V)} {st : St V} {iw lv : Nat}
    (h : Inv G ((v, w :: rest) :: ws) st)
    (hiw : st.index w = some iw) (hon : w ∈ st.onStack)
    (hlv : st.lowlink v = some lv) :
    Inv G ((v, rest) :: ws)
      { st with lowlink := upd st.lowlink v (min lv iw) } := by
  set st' : St V := { st with lowlink := upd st.lowlink v (min lv iw) } with hst'
  have hvstk : v ∈ st.stack := h.wk_stk v (by simp)
  have hwstk : w ∈ st.stack := (h.on_eq w).1 hon
  have hlov : st.lo v = lv := by simp [St.lo, hlv]
  have hixw : st.ix w = iw := by simp [St.ix, hiw]
  have hix : ∀ x, st'.ix x = st.ix x := fun x => rfl
  have hvis : ∀ x, st'.vis x ↔ st.vis x := fun x => Iff.rfl
  have hlo_ne : ∀ x, x ≠ v → st'.lo x = st.lo x := by
    intro x hx
    simp [St.lo, hst', upd, hx]
  have hlo_v : st'.lo v = min lv iw := by
    simp [St.lo, hst', upd]
  have hlo_le : ∀ x, st'.lo x ≤ st.lo x := by
    intro x
    by_cases hx : x = v
    · subst hx; rw [hlo_v, hlov]; exact min_le_left _ _
    · rw [hlo_ne x hx]
  have hvnotws : v ∉ ws.map Prod.fst := by
    intro hmem
    have hp := h.wk_sorted
    simp only [List.map_cons] at hp
    have := (List.pairwise_cons.1 hp).1 v hmem
    omega
  have hedge_vw : EdgeG G v w := by
    obtain ⟨adj, hadj, hsuf⟩ := h.wk_rem (v, w :: rest) (by simp)
    exact ⟨adj, hadj, hsuf.mem (by simp)⟩
  refine ⟨h.counter_gt, h.ix_inj, ?_, h.vis_keys, h.on_eq, h.stk_vis,
    h.stk_sorted, h.stk_split, h.emit_vis, h.emit_off, h.join_nodup,
    h.comp_ne, ?_, ?_, h.reach_up, h.wk_stk, h.wk_sorted,
    ?_, h.wk_edge, h.wk_bot, ?_, ?_, ?_, ?_,
    h.emit_topo, h.emit_reach⟩
  · intro x
    by_cases hx : x = v
    · subst hx
      constructor
      · intro _; exact h.stk_vis x hvstk
      · intro _; simp [hst', upd]
    · have : st'.lowlink x = st.lowlink x := by simp [hst', upd, hx]
      rw [this]; exact h.vis_low x
  · intro x hx
    exact le_trans (hlo_le x) (h.low_le x hx)
  · intro x hx
    by_cases hxv : x = v
    · subst hxv
      rcases le_total lv iw with hmin | hmin
      · obtain ⟨y, hy, hyix, hre⟩ := h.low_reach x hx
        refine ⟨y, hy, ?_, hre⟩
        rw [hix, hyix, hlo_v, hlov]
        omega
      · refine ⟨w, hwstk, ?_, Relation.ReflTransGen.single hedge_vw⟩
        rw [hix, hixw, hlo_v]
        omega
    · obtain ⟨y, hy, hyix, hre⟩ := h.low_reach x hx
      exact ⟨y, hy, by rw [hix, hyix, hlo_ne x hxv], hre⟩
  · intro f hf
    rcases List.mem_cons.1 hf with h1 | h1
    · subst h1
      obtain ⟨adj, hadj, hsuf⟩ := h.wk_rem (v, w :: rest) (by simp)
      exact ⟨adj, hadj, (List.suffix_cons w rest).trans hsuf⟩
    · exact h.wk_rem f (List.mem_cons_of_mem _ h1)
  · intro x hx hnf
    have hxv : x ≠ v := by
      intro he; subst he; exact hnf (by simp)
    rw [hlo_ne x hxv]
    exact h.fin_low x hx hnf
  · intro x hx hnf
    have hxv : x ≠ v := by
      intro he; subst he; exact hnf (by simp)
    obtain ⟨f, hf, hfix, hflo, hfmax⟩ := h.fin_chain x hx hnf
    exact ⟨f, hf, hfix, le_trans (hlo_le f) (by rw [← hlo_ne x hxv] at hflo; exact hflo), hfmax⟩
  · intro v' rem' hmem adj pre hadj hdecomp y hy
    rcases List.mem_cons.1 hmem with h1 | h1
    · injection h1 with e1 e2
      subst e1; subst e2
      obtain ⟨adj0, hadj0, hsuf⟩ := h.wk_rem (v', w :: rem') (by simp)
      rw [hadj0] at hadj
      injection hadj with e3
      subst e3
      obtain ⟨t, ht⟩ := hsuf
      have hpre : pre = t ++ [w] := pre_eq_of_append (ht.trans hdecomp)
      subst hpre
      rcases List.mem_append.1 hy with hyt | hyw
      · obtain ⟨hv1, hv2⟩ :=
          h.proc_frame v' (w :: rem') (by simp) adj0 t hadj0 ht.symm y hyt
        exact ⟨hv1, fun hstk => le_trans (hlo_le v') (hv2 hstk)⟩
      · have hyw2 : y = w := by simpa using hyw
        subst hyw2
        refine ⟨by simp [St.vis, hiw], fun _ => ?_⟩
        rw [hix, hixw, hlo_v]
        exact min_le_right _ _
    · have hne : v' ≠ v := by
        intro he; subst he
        exact hvnotws (List.mem_map.2 ⟨(v', rem'), h1, rfl⟩)
      obtain ⟨hv1, hv2⟩ :=
        h.proc_frame v' rem' (List.mem_cons_of_mem _ h1) adj pre hadj hdecomp y hy
      exact ⟨hv1, fun hstk => by rw [hlo_ne v' hne]; exact hv2 hstk⟩
  · intro x hvx hnf adj hadj y hy
    have hxv : x ≠ v := by
      intro he; subst he; exact hnf (by simp)
    obtain ⟨hv1, hv2⟩ := h.proc_done x hvx hnf adj hadj y hy
    exact ⟨hv1, fun hstk => by rw [hlo_ne x hxv]; exact hv2 hstk⟩

theorem mem_of_getLast?_eq {l : List V} {a : V} (h : l.getLast? = some a) :
    a ∈ l := by
  obtain ⟨hne, heq⟩ := List.mem_getLast?_eq_getLast (Option.mem_def.2 h)
  rw [heq]
  exact List.getLast_mem hne

/-- Preservation: the head frame yields an unvisited neighbour `w`; `w` is
assigned a fresh index and pushed onto both stacks with its own frame. -/
theorem Inv.push {G : Graph V} {v w : V} {rest adjw : List V}
    {ws : List (V × List V)} {st : St V}
    (h : Inv G ((v, w :: rest) :: ws) st)
    (hw : st.index w = none) (hadj : alookup G w = some adjw) :
    Inv G ((w, adjw) :: (v, rest) :: ws)
      { st with index := upd st.index w st.counter,
                lowlink := upd st.lowlink w st.counter,
                counter := st.counter + 1,
                stack := w :: st.stack,
                onStack := insert w st.onStack } := by
  set st' : St V :=
    { st with index := upd st.index w st.counter,
              lowlink := upd st.lowlink w st.counter,
              counter := st.counter + 1,
              stack := w :: st.stack,
              onStack := insert w st.onStack } with hst'
  have hnw : ¬ st.vis w := by simp [St.vis, hw]
  have hwstk : w ∉ st.stack := fun hmem => hnw (h.stk_vis w hmem)
  have hixw : st'.ix w = st.counter := by simp [St.ix, hst', upd]
  have hvisw : st'.vis w := by simp [St.vis, hst', upd]
  have hloww : st'.lo w = st.counter := by simp [St.lo, hst', upd]
  have hix : ∀ x, x ≠ w → st'.ix x = st.ix x := by
    intro x hx; simp [St.ix, hst', upd, hx]
  have hvis : ∀ x, x ≠ w → (st'.vis x ↔ st.vis x) := by
    intro x hx; simp [St.vis, hst', upd, hx]
  have hlo : ∀ x, x ≠ w → st'.lo x = st.lo x := by
    intro x hx; simp [St.lo, hst', upd, hx]
  have hvne : ∀ x, st.vis x → x ≠ w := fun x hx he => hnw (he ▸ hx)
  have hvismono : ∀ x, st.vis x → st'.vis x := by
    intro x hx
    by_cases hxw : x = w
    · subst hxw; exact hvisw
    · exact (hvis x hxw).2 hx
  have hixlt : ∀ x, st.vis x → st'.ix x < st.counter := by
    intro x hx
    rw [hix x (hvne x hx)]
    exact h.counter_gt x hx
  have hvstk : v ∈ st.stack := h.wk_stk v (by simp)
  have hvvis : st.vis v := h.stk_vis v hvstk
  have hedge_vw : EdgeG G v w := by
    obtain ⟨adj, hadjv, hsuf⟩ := h.wk_rem (v, w :: rest) (by simp)
    exact ⟨adj, hadjv, hsuf.mem (by simp)⟩
  have hreach_w : ∀ x ∈ st.stack, Reaches G x w := fun x hx =>
    (h.stack_reaches_head x hx).trans (Relation.ReflTransGen.single hedge_vw)
  have hfr_old : ∀ x ∈ (v :: ws.map Prod.fst), x ∈ st.stack := by
    intro x hx
    have : x ∈ ((v, w :: rest) :: ws).map Prod.fst := by simpa using hx
    exact h.wk_stk x this
  refine ⟨?_, ?_, ?_, ?_, ?_, ?_, ?_, ?_, ?_, ?_, h.join_nodup, h.comp_ne,
    ?_, ?_, ?_, ?_, ?_, ?_, ?_, ?_, ?_, ?_, ?_, ?_, h.emit_topo, h.emit_reach⟩
  · intro x hx
    by_cases hxw : x = w
    · subst hxw
      rw [hixw]
      simp [hst']
    · have := h.counter_gt x ((hvis x hxw).1 hx)
      rw [hix x hxw]
      simp [hst']
      omega
  · intro x y hx hy he
    by_cases hxw : x = w
    · by_cases hyw : y = w
      · rw [hxw, hyw]
      · have := h.counter_gt y ((hvis y hyw).1 hy)
        rw [hxw, hixw, hix y hyw] at he
        omega
    · by_cases hyw : y = w
      · have := h.counter_gt x ((hvis x hxw).1 hx)
        rw [hyw, hixw, hix x hxw] at he
        omega
      · exact h.ix_inj x y ((hvis x hxw).1 hx) ((hvis y hyw).1 hy)
          (by rw [← hix x hxw, ← hix y hyw]; exact he)
  · intro x
    by_cases hxw : x = w
    · subst hxw
      constructor
      · intro _; exact hvisw
      · intro _; simp [hst', upd]
    · have e1 : st'.lowlink x = st.lowlink x := by simp [hst', upd, hxw]
      have e2 : st'.index x = st.index x := by simp [hst', upd, hxw]
      rw [e1]
      constructor
      · intro hs; exact (hvis x hxw).2 ((h.vis_low x).1 hs)
      · intro hs; exact (h.vis_low x).2 ((hvis x hxw).1 hs)
  · intro x hx
    by_cases hxw : x = w
    · subst hxw; exact mem_gkeys_of_alookup hadj
    · exact h.vis_keys x ((hvis x hxw).1 hx)
  · intro x
    simp only [hst', Finset.mem_insert, List.mem_cons]
    rw [h.on_eq x]
  · intro x hx
    rcases List.mem_cons.1 hx with h1 | h1
    · subst h1; exact hvisw
    · exact hvismono x (h.stk_vis x h1)
  · refine List.pairwise_cons.2 ⟨?_, ?_⟩
    · intro y hy
      have := hixlt y (h.stk_vis y hy)
      rw [hixw]
      omega
    · refine List.Pairwise.imp_of_mem ?_ h.stk_sorted
      intro a b ha hb hab
      rw [hix a (hvne a (h.stk_vis a ha)), hix b (hvne b (h.stk_vis b hb))]
      exact hab
  · intro x hx
    by_cases hxw : x = w
    · subst hxw; exact Or.inl (by simp)
    · rcases h.stk_split x ((hvis x hxw).1 hx) with h1 | h1
      · exact Or.inl (List.mem_cons_of_mem _ h1)
      · exact Or.inr h1
  · intro x hx
    exact hvismono x (h.emit_vis x hx)
  · intro x hx
    have hvx := h.emit_vis x hx
    intro hmem
    rcases List.mem_cons.1 hmem with h1 | h1
    · exact hvne x hvx h1
    · exact h.emit_off x hx h1
  · intro x hx
    by_cases hxw : x = w
    · rw [hxw, hloww, hixw]
    · have hx0 := (hvis x hxw).1 hx
      rw [hlo x hxw, hix x hxw]
      exact h.low_le x hx0
  · intro x hx
    rcases List.mem_cons.1 hx with h1 | h1
    · subst h1
      exact ⟨x, by simp, by rw [hixw, hloww], Relation.ReflTransGen.refl⟩
    · have hxw := hvne x (h.stk_vis x h1)
      obtain ⟨y, hy, hyix, hre⟩ := h.low_reach x h1
      have hyw := hvne y (h.stk_vis y hy)
      exact ⟨y, List.mem_cons_of_mem _ hy,
        by rw [hix y hyw, hlo x hxw]; exact hyix, hre⟩
  · intro x hx y hy hle
    rcases List.mem_cons.1 hy with h1 | h1
    · subst h1
      rcases List.mem_cons.1 hx with h2 | h2
      · subst h2; exact Relation.ReflTransGen.refl
      · exact hreach_w x h2
    · have hyw := hvne y (h.stk_vis y h1)
      rcases List.mem_cons.1 hx with h2 | h2
      · subst h2
        rw [hixw, hix y hyw] at hle
        have := h.counter_gt y (h.stk_vis y h1)
        omega
      · have hxw := hvne x (h.stk_vis x h2)
        rw [hix x hxw, hix y hyw] at hle
        exact h.reach_up x h2 y h1 hle
  · intro x hx
    simp only [List.map_cons] at hx
    rcases List.mem_cons.1 hx with h1 | h1
    · subst h1; exact List.mem_cons_self _ _
    · exact List.mem_cons_of_mem _ (hfr_old x h1)
  · simp only [List.map_cons]
    refine List.pairwise_cons.2 ⟨?_, ?_⟩
    · intro y hy
      have hystk := hfr_old y hy
      have := hixlt y (h.stk_vis y hystk)
      rw [hixw]
      omega
    · have hold := h.wk_sorted
      simp only [List.map_cons] at hold
      refine List.Pairwise.imp_of_mem ?_ hold
      intro a b ha hb hab
      have haw := hvne a (h.stk_vis a (hfr_old a ha))
      have hbw := hvne b (h.stk_vis b (hfr_old b hb))
      rw [hix a haw, hix b hbw]
      exact hab
  · intro f hf
    rcases List.mem_cons.1 hf with h1 | h1
    · subst h1; exact ⟨adjw, hadj, List.suffix_refl adjw⟩
    · rcases List.mem_cons.1 h1 with h2 | h2
      · subst h2
        obtain ⟨adj, hadjv, hsuf⟩ := h.wk_rem (v, w :: rest) (by simp)
        exact ⟨adj, hadjv, (List.suffix_cons w rest).trans hsuf⟩
      · exact h.wk_rem f (List.mem_cons_of_mem _ h2)
  · simp only [List.map_cons]
    refine List.chain'_cons.2 ⟨hedge_vw, ?_⟩
    have hold := h.wk_edge
    simpa using hold
  · intro x hlast z hz
    simp only [List.map_cons, List.getLast?_cons_cons] at hlast
    have hxmem : x ∈ (v :: ws.map Prod.fst) := mem_of_getLast?_eq hlast
    have hxstk := hfr_old x hxmem
    have hxvis := h.stk_vis x hxstk
    rcases List.mem_cons.1 hz with h1 | h1
    · subst h1
      have := hixlt x hxvis
      rw [hixw]
      omega
    · have hold := h.wk_bot x (by simpa using hlast) z h1
      have hzw := hvne z (h.stk_vis z h1)
      rw [hix x (hvne x hxvis), hix z hzw]
      exact hold
  · intro x hx hnf
    simp only [List.map_cons, List.mem_cons] at hnf
    push_neg at hnf
    obtain ⟨hxw, hxv, hxws⟩ := hnf
    have hxstk : x ∈ st.stack := by
      rcases List.mem_cons.1 hx with h1 | h1
      · exact absurd h1 hxw
      · exact h1
    have hxnf : x ∉ ((v, w :: rest) :: ws).map Prod.fst := by
      simp only [List.map_cons, List.mem_cons]
      push_neg
      exact ⟨hxv, hxws⟩
    have := h.fin_low x hxstk hxnf
    rw [hlo x hxw, hix x hxw]
    exact this
  · intro x hx hnf
    simp only [List.map_cons, List.mem_cons] at hnf
    push_neg at hnf
    obtain ⟨hxw, hxv, hxws⟩ := hnf
    have hxstk : x ∈ st.stack := by
      rcases List.mem_cons.1 hx with h1 | h1
      · exact absurd h1 hxw
      · exact h1
    have hxnf : x ∉ ((v, w :: rest) :: ws).map Prod.fst := by
      simp only [List.map_cons, List.mem_cons]
      push_neg
      exact ⟨hxv, hxws⟩
    obtain ⟨f, hf, hfix, hflo, hfmax⟩ := h.fin_chain x hxstk hxnf
    simp only [List.map_cons] at hf
    have hfstk := hfr_old f hf
    have hfw := hvne f (h.stk_vis f hfstk)
    refine ⟨f, by simp only [List.map_cons]; exact List.mem_cons_of_mem _ hf,
      ?_, ?_, ?_⟩
    · rw [hix f hfw, hix x hxw]; exact hfix
    · rw [hlo f hfw, hlo x hxw]; exact hflo
    · intro g hg hglt
      simp only [List.map_cons, List.mem_cons] at hg
      rcases hg with h1 | h1
      · subst h1
        rw [hixw, hix x hxw] at hglt
        have := h.counter_gt x (h.stk_vis x hxstk)
        omega
      · have hg2 : g ∈ v :: ws.map Prod.fst := List.mem_cons.2 h1
        have hg3 : g ∈ (List.map Prod.fst ((v, w :: rest) :: ws)) := by
          simpa using hg2
        have hgstk := hfr_old g hg2
        have hgw := hvne g (h.stk_vis g hgstk)
        rw [hix g hgw, hix x hxw] at hglt
        rw [hix g hgw, hix f hfw]
        exact hfmax g hg3 hglt
  · intro v' rem' hmem adj pre hadj' hdecomp y hy
    rcases List.mem_cons.1 hmem with h1 | h1
    · injection h1 with e1 e2
      subst e1; subst e2
      rw [hadj] at hadj'
      injection hadj' with e3
      rw [← e3] at hdecomp
      have hpre : pre = [] := by
        have := hdecomp.symm
        simpa using this
      subst hpre
      simp at hy
    · rcases List.mem_cons.1 h1 with h2 | h2
      · injection h2 with e1 e2
        subst e1; subst e2
        obtain ⟨adj0, hadj0, hsuf⟩ := h.wk_rem (v', w :: rem') (by simp)
        rw [hadj0] at hadj'
        injection hadj' with e3
        subst e3
        obtain ⟨t, ht⟩ := hsuf
        have hpre : pre = t ++ [w] := pre_eq_of_append (ht.trans hdecomp)
        subst hpre
        have hv'w := hvne v' hvvis
        rcases List.mem_append.1 hy with hyt | hyw
        · obtain ⟨hv1, hv2⟩ :=
            h.proc_frame v' (w :: rem') (by simp) adj0 t hadj0 ht.symm y hyt
          have hyvw := hvne y hv1
          refine ⟨hvismono y hv1, fun hstk => ?_⟩
          have hystk : y ∈ st.stack := by
            rcases List.mem_cons.1 hstk with hc | hc
            · exact absurd hc hyvw
            · exact hc
          rw [hlo v' hv'w, hix y hyvw]
          exact hv2 hystk
        · have hyw2 : y = w := by simpa using hyw
          subst hyw2
          refine ⟨hvisw, fun _ => ?_⟩
          rw [hlo v' hv'w, hixw]
          have h1' := h.low_le v' hvvis
          have h2' := h.counter_gt v' hvvis
          omega
      · obtain ⟨hv1, hv2⟩ :=
          h.proc_frame v' rem' (List.mem_cons_of_mem _ h2) adj pre hadj' hdecomp y hy
        have hv'stk : v' ∈ st.stack := by
          refine hfr_old v' ?_
          exact List.mem_cons_of_mem _ (List.mem_map.2 ⟨(v', rem'), h2, rfl⟩)
        have hv'w := hvne v' (h.stk_vis v' hv'stk)
        have hyvw := hvne y hv1
        refine ⟨hvismono y hv1, fun hstk => ?_⟩
        have hystk : y ∈ st.stack := by
          rcases List.mem_cons.1 hstk with hc | hc
          · exact absurd hc hyvw
          · exact hc
        rw [hlo v' hv'w, hix y hyvw]
        exact hv2 hystk
  · intro x hvx hnf adj hadj' y hy
    have hxw : x ≠ w := by
      intro he; subst he
      exact hnf (by simp)
    have hvx0 := (hvis x hxw).1 hvx
    have hxnf : x ∉ ((v, w :: rest) :: ws).map Prod.fst := by
      intro hmem
      simp only [List.map_cons, List.mem_cons] at hmem ⊢
      refine hnf ?_
      simp only [List.map_cons, List.mem_cons]
      rcases hmem with h1 | h1
      · exact Or.inr (Or.inl h1)
      · exact Or.inr (Or.inr h1)
    obtain ⟨hv1, hv2⟩ := h.proc_done x hvx0 hxnf adj hadj' y hy
    have hyvw := hvne y hv1
    refine ⟨hvismono y hv1, fun hstk => ?_⟩
    have hystk : y ∈ st.stack := by
      rcases List.mem_cons.1 hstk with hc | hc
      · exact absurd hc hyvw
      · exact hc
    rw [hlo x hxw, hix y hyvw]
    exact hv2 hystk

theorem mem_eraseAll {s : Finset V} {l : List V} {x : V} :
    x ∈ eraseAll s l ↔ x ∈ s ∧ x ∉ l := by
  induction l generalizing s with
  | nil => simp [eraseAll]
  | cons a t ih =>
    have : eraseAll s (a :: t) = eraseAll (s.erase a) t := rfl
    rw [this, ih]
    simp only [Finset.mem_erase, List.mem_cons]
    constructor
    · rintro ⟨⟨hne, hs⟩, hnt⟩
      exact ⟨hs, fun hc => hc.elim hne hnt⟩
    · rintro ⟨hs, hn⟩
      exact ⟨⟨fun he => hn (Or.inl he), hs⟩, fun ht => hn (Or.inr ht)⟩

/-- Preservation of the parent lowlink update executed at a pop step. -/
theorem Inv.parent_upd {G : Graph V} {v p : V} {prem : List V}
    {ws' : List (V × List V)} {st : St V} {lp lv : Nat}
    (h : Inv G ((v, []) :: (p, prem) :: ws') st)
    (hlp : st.lowlink p = some lp) (hlv : st.lowlink v = some lv) :
    Inv G ((v, []) :: (p, prem) :: ws')
      { st with lowlink := upd st.lowlink p (min lp lv) } := by
  set st' : St V := { st with lowlink := upd st.lowlink p (min lp lv) } with hst'
  have hvstk : v ∈ st.stack := h.wk_stk v (by simp)
  have hpstk : p ∈ st.stack := h.wk_stk p (by simp)
  have hlop : st.lo p = lp := by simp [St.lo, hlp]
  have hlov : st.lo v = lv := by simp [St.lo, hlv]
  have hlo_p : st'.lo p = min lp lv := by simp [St.lo, hst', upd]
  have hlo_ne : ∀ x, x ≠ p → st'.lo x = st.lo x := by
    intro x hx; simp [St.lo, hst', upd, hx]
  have hlo_le : ∀ x, st'.lo x ≤ st.lo x := by
    intro x
    by_cases hx : x = p
    · rw [hx, hlo_p, hlop]; exact min_le_left _ _
    · rw [hlo_ne x hx]
  have hedge_pv : EdgeG G p v := by
    have hc := h.wk_edge
    simp only [List.map_cons] at hc
    exact (List.chain'_cons.1 hc).1
  refine ⟨h.counter_gt, h.ix_inj, ?_, h.vis_keys, h.on_eq, h.stk_vis,
    h.stk_sorted, h.stk_split, h.emit_vis, h.emit_off, h.join_nodup,
    h.comp_ne, ?_, ?_, h.reach_up, h.wk_stk, h.wk_sorted, h.wk_rem,
    h.wk_edge, h.wk_bot, ?_, ?_, ?_, ?_, h.emit_topo, h.emit_reach⟩
  · intro x
    by_cases hx : x = p
    · rw [hx]
      constructor
      · intro _; exact h.stk_vis p hpstk
      · intro _; simp [hst', upd]
    · have : st'.lowlink x = st.lowlink x := by simp [hst', upd, hx]
      rw [this]; exact h.vis_low x
  · intro x hx
    exact le_trans (hlo_le x) (h.low_le x hx)
  · intro x hx
    obtain ⟨y0, hy0, hyix0, hre0⟩ := h.low_reach x hx
    by_cases hxp : x = p
    · rcases le_total lp lv with hmin | hmin
      · refine ⟨y0, hy0, ?_, hre0⟩
        show st.ix y0 = st'.lo x
        rw [hxp, hlo_p, hyix0, hxp, hlop]
        omega
      · obtain ⟨y, hy, hyix, hre⟩ := h.low_reach v hvstk
        refine ⟨y, hy, ?_, ?_⟩
        · show st.ix y = st'.lo x
          rw [hxp, hlo_p, hyix, hlov]
          omega
        · rw [hxp]
          exact Relation.ReflTransGen.head hedge_pv hre
    · refine ⟨y0, hy0, ?_, hre0⟩
      show st.ix y0 = st'.lo x
      rw [hlo_ne x hxp, hyix0]
  · intro x hx hnf
    have hxp : x ≠ p := by
      intro he; rw [he] at hnf; exact hnf (by simp)
    rw [hlo_ne x hxp]
    exact h.fin_low x hx hnf
  · intro x hx hnf
    have hxp : x ≠ p := by
      intro he; rw [he] at hnf; exact hnf (by simp)
    obtain ⟨f, hf, hfix, hflo, hfmax⟩ := h.fin_chain x hx hnf
    refine ⟨f, hf, hfix, ?_, hfmax⟩
    rw [hlo_ne x hxp]
    exact le_trans (hlo_le f) hflo
  · intro v' rem' hmem adj pre hadj hdecomp y hy
    obtain ⟨hv1, hv2⟩ := h.proc_frame v' rem' hmem adj pre hadj hdecomp y hy
    exact ⟨hv1, fun hstk => le_trans (hlo_le v') (hv2 hstk)⟩
  · intro x hvx hnf adj hadj y hy
    have hxp : x ≠ p := by
      intro he; rw [he] at hnf; exact hnf (by simp)
    obtain ⟨hv1, hv2⟩ := h.proc_done x hvx hnf adj hadj y hy
    exact ⟨hv1, fun hstk => by rw [hlo_ne x hxp]; exact hv2 hstk⟩

/-- When the popped frame is the last one, its lowlink equals its index. -/
theorem Inv.last_frame_emits {G : Graph V} {v : V} {st : St V}
    (h : Inv G [(v, [])] st) : st.lo v = st.ix v := by
  have hvstk : v ∈ st.stack := h.wk_stk v (by simp)
  have hbot := h.wk_bot v (by simp)
  obtain ⟨y, hy, hyix, _⟩ := h.low_reach v hvstk
  have h1 : st.lo v ≤ st.ix v := h.low_le v (h.stk_vis v hvstk)
  have h2 : st.ix v ≤ st.ix y := hbot y hy
  omega

/-- Preservation of a pop step that does not emit a component (only possible
when a parent frame remains, whose lowlink was just folded in). -/
theorem Inv.pop_noemit {G : Graph V} {v p : V} {prem : List V}
    {ws' : List (V × List V)} {st1 : St V}
    (h : Inv G ((v, []) :: (p, prem) :: ws') st1)
    (hpv : st1.lo p ≤ st1.lo v)
    (hne : st1.lo v ≠ st1.ix v) :
    Inv G ((p, prem) :: ws') st1 := by
  have hvstk : v ∈ st1.stack := h.wk_stk v (by simp)
  have hpstk : p ∈ st1.stack := h.wk_stk p (by simp)
  have hpix : st1.ix p < st1.ix v := by
    have hs := h.wk_sorted
    simp only [List.map_cons] at hs
    exact (List.pairwise_cons.1 hs).1 p (by simp)
  have htl : ∀ g ∈ (p, prem) :: ws', g.1 ∈ ((v, ([] : List V)) :: (p, prem) :: ws').map Prod.fst := by
    intro g hg
    simp only [List.map_cons, List.mem_cons]
    rcases List.mem_cons.1 hg with h1 | h1
    · exact Or.inr (Or.inl (by rw [h1]))
    · exact Or.inr (Or.inr (List.mem_map.2 ⟨g, h1, rfl⟩))
  have htl' : ∀ x ∈ ((p, prem) :: ws').map Prod.fst,
      x ∈ ((v, ([] : List V)) :: (p, prem) :: ws').map Prod.fst := by
    intro x hx
    simp only [List.map_cons, List.mem_cons] at hx ⊢
    exact Or.inr hx
  have hfle : ∀ x ∈ ((p, prem) :: ws').map Prod.fst, st1.ix x ≤ st1.ix p := by
    intro x hx
    have hs := h.wk_sorted
    simp only [List.map_cons] at hs
    have hs2 := (List.pairwise_cons.1 hs).2
    simp only [List.map_cons] at hx
    rcases List.mem_cons.1 hx with h1 | h1
    · rw [h1]
    · exact le_of_lt ((List.pairwise_cons.1 hs2).1 x h1)
  refine ⟨h.counter_gt, h.ix_inj, h.vis_low, h.vis_keys, h.on_eq, h.stk_vis,
    h.stk_sorted, h.stk_split, h.emit_vis, h.emit_off, h.join_nodup,
    h.comp_ne, h.low_le, h.low_reach, h.reach_up, ?_, ?_, ?_, ?_, ?_,
    ?_, ?_, ?_, ?_, h.emit_topo, h.emit_reach⟩
  · intro x hx
    exact h.wk_stk x (htl' x hx)
  · have hs := h.wk_sorted
    simp only [List.map_cons] at hs ⊢
    exact (List.pairwise_cons.1 hs).2
  · intro f hf
    exact h.wk_rem f (List.mem_cons_of_mem _ hf)
  · have hc := h.wk_edge
    simp only [List.map_cons] at hc ⊢
    exact (List.chain'_cons.1 hc).2
  · intro x hlast z hz
    refine h.wk_bot x ?_ z hz
    simp only [List.map_cons, List.getLast?_cons_cons]
    simpa using hlast
  · intro x hx hnf
    by_cases hxv : x = v
    · rw [hxv]
      have := h.low_le v (h.stk_vis v hvstk)
      rw [hxv] at hnf
      omega
    · refine h.fin_low x hx ?_
      intro hmem
      simp only [List.map_cons, List.mem_cons] at hmem hnf
      rcases hmem with h1 | h1
      · exact hxv h1
      · exact hnf h1
  · intro x hx hnf
    by_cases hxv : x = v
    · subst hxv
      refine ⟨p, by simp, hpix, hpv, ?_⟩
      intro g hg _
      exact hfle g hg
    · have hxnf : x ∉ ((v, ([] : List V)) :: (p, prem) :: ws').map Prod.fst := by
        intro hmem
        simp only [List.map_cons, List.mem_cons] at hmem hnf
        rcases hmem with h1 | h1
        · exact hxv h1
        · exact hnf h1
      obtain ⟨f, hf, hfix, hflo, hfmax⟩ := h.fin_chain x hx hxnf
      simp only [List.map_cons, List.mem_cons] at hf
      rcases hf with hfv | hf1
      · -- the old nearest frame was `v` itself: use `p` instead
        refine ⟨p, by simp, ?_, ?_, ?_⟩
        · rw [hfv] at hfix
          omega
        · rw [hfv] at hflo
          exact le_trans hpv hflo
        · intro g hg _
          exact hfle g hg
      · refine ⟨f, by simpa using hf1, hfix, hflo, ?_⟩
        intro g hg hglt
        exact hfmax g (htl' g hg) hglt
  · intro v' rem' hmem adj pre hadj hdecomp y hy
    exact h.proc_frame v' rem' (List.mem_cons_of_mem _ hmem) adj pre hadj hdecomp y hy
  · intro x hvx hnf adj hadj y hy
    by_cases hxv : x = v
    · subst hxv
      exact h.proc_frame x [] (by simp) adj adj hadj (by simp) y hy
    · refine h.proc_done x hvx ?_ adj hadj y hy
      intro hmem
      simp only [List.map_cons, List.mem_cons] at hmem hnf
      rcases hmem with h1 | h1
      · exact hxv h1
      · exact hnf h1

/-- Preservation of a pop step that emits the component sitting above (and
including) `v` on the Tarjan stack. -/
theorem Inv.pop_emit {G : Graph V} {v : V} {ws : List (V × List V)} {st1 : St V}
    (h : Inv G ((v, []) :: ws) st1)
    (hem : st1.lo v = st1.ix v)
    {pre rest : List V}
    (hsplit : st1.stack = pre ++ v :: rest) (hvpre : v ∉ pre) :
    Inv G ws
      { st1 with stack := rest,
                 onStack := eraseAll st1.onStack (pre ++ [v]),
                 sccs := st1.sccs ++ [pre ++ [v]] } := by
  set seg : List V := pre ++ [v] with hseg
  set st2 : St V :=
    { st1 with stack := rest, onStack := eraseAll st1.onStack seg,
               sccs := st1.sccs ++ [seg] } with hst2
  have hsplit2 : st1.stack = seg ++ rest := by
    rw [hsplit, hseg]
    simp
  have hvstk : v ∈ st1.stack := h.wk_stk v (by simp)
  have hnd : st1.stack.Nodup :=
    h.stk_sorted.imp (fun hab => fun he => by rw [he] at hab; exact lt_irrefl _ hab)
  have hsort := h.stk_sorted
  rw [hsplit2] at hsort hnd
  obtain ⟨hsort_seg, hsort_rest, hsort_cross⟩ := List.pairwise_append.1 hsort
  obtain ⟨hnd_seg, hnd_rest, hdisj⟩ := List.nodup_append.1 hnd
  obtain ⟨hsort_pre, -, hcross_pre_v⟩ := List.pairwise_append.1 hsort_seg
  have hmemstk : ∀ x, x ∈ st1.stack ↔ (x ∈ seg ∨ x ∈ rest) := by
    intro x; rw [hsplit2]; exact List.mem_append
  have hvseg : v ∈ seg := by simp [hseg]
  have hsegstk : ∀ x ∈ seg, x ∈ st1.stack := fun x hx => (hmemstk x).2 (Or.inl hx)
  have hreststk : ∀ x ∈ rest, x ∈ st1.stack := fun x hx => (hmemstk x).2 (Or.inr hx)
  have hsegix : ∀ x ∈ seg, st1.ix v ≤ st1.ix x := by
    intro x hx
    rcases List.mem_append.1 hx with h1 | h1
    · exact le_of_lt (hcross_pre_v x h1 v (by simp))
    · have hx2 : x = v := by simpa using h1
      rw [hx2]
  have hrestix : ∀ x ∈ rest, st1.ix x < st1.ix v := fun x hx =>
    hsort_cross v hvseg x hx
  have hfr : ∀ x ∈ ws.map Prod.fst, x ∈ rest := by
    intro x hx
    have hx1 : x ∈ ((v, ([] : List V)) :: ws).map Prod.fst := by
      simp only [List.map_cons, List.mem_cons]
      exact Or.inr hx
    have hxs := h.wk_stk x hx1
    have hxlt : st1.ix x < st1.ix v := by
      have hs := h.wk_sorted
      simp only [List.map_cons] at hs
      exact (List.pairwise_cons.1 hs).1 x hx
    rcases (hmemstk x).1 hxs with h1 | h1
    · exact absurd (hsegix x h1) (not_le.2 hxlt)
    · exact h1
  have hsegnf : ∀ x ∈ seg, x ≠ v →
      x ∉ ((v, ([] : List V)) :: ws).map Prod.fst := by
    intro x hx hxv hmem
    rcases List.mem_append.1 hx with h1 | h1
    · have hgt : st1.ix v < st1.ix x := hcross_pre_v x h1 v (by simp)
      exact absurd (h.frame_ix_le_head x hmem) (not_le.2 hgt)
    · exact hxv (by simpa using h1)
  have hseg_lo : ∀ x ∈ seg, st1.ix v ≤ st1.lo x := by
    intro x hx
    by_cases hxv : x = v
    · rw [hxv, hem]
    · have hxstk := hsegstk x hx
      have hxixgt : st1.ix v < st1.ix x := by
        rcases List.mem_append.1 hx with h1 | h1
        · exact hcross_pre_v x h1 v (by simp)
        · exact absurd (by simpa using h1) hxv
      obtain ⟨f, hf, hfix, hflo, hfmax⟩ := h.fin_chain x hxstk (hsegnf x hx hxv)
      have hvm : v ∈ ((v, ([] : List V)) :: ws).map Prod.fst := by simp
      have h1 : st1.ix v ≤ st1.ix f := hfmax v hvm hxixgt
      have h2 : st1.ix f ≤ st1.ix v := h.frame_ix_le_head f hf
      have hfv : f = v := h.ix_inj f v (h.stk_vis f (h.wk_stk f hf))
        (h.stk_vis v hvstk) (le_antisymm h2 h1)
      rw [← hem, ← hfv]
      exact hflo
  have hproc : ∀ x ∈ seg, ∀ adj, alookup G x = some adj →
      ∀ y ∈ adj, st1.vis y ∧ (y ∈ st1.stack → st1.lo x ≤ st1.ix y) := by
    intro x hx adj hadj y hy
    by_cases hxv : x = v
    · have := h.proc_frame v [] (by simp) adj adj (hxv ▸ hadj) (by simp) y hy
      rw [hxv]
      exact this
    · exact h.proc_done x (h.stk_vis x (hsegstk x hx)) (hsegnf x hx hxv)
        adj hadj y hy
  have hlenA : (st1.sccs ++ [seg]).length = st1.sccs.length + 1 := by simp
  have hgetlt : ∀ j (hj : j < st1.sccs.length)
      (hj2 : j < (st1.sccs ++ [seg]).length),
      (st1.sccs ++ [seg]).get ⟨j, hj2⟩ = st1.sccs.get ⟨j, hj⟩ := by
    intro j hj hj2
    simp only [List.get_eq_getElem]
    exact List.getElem_append_left hj
  have hgetn : ∀ (hn : st1.sccs.length < (st1.sccs ++ [seg]).length),
      (st1.sccs ++ [seg]).get ⟨st1.sccs.length, hn⟩ = seg := by
    intro hn
    simp only [List.get_eq_getElem]
    exact List.getElem_concat_length _ _ _ rfl _
  have hidx : ∀ y, y ∈ st1.sccs.flatten →
      ∃ j, ∃ hj : j < st1.sccs.length, y ∈ st1.sccs.get ⟨j, hj⟩ := by
    intro y hy
    obtain ⟨C, hC, hyC⟩ := List.mem_flatten.1 hy
    obtain ⟨⟨j, hj⟩, hCe⟩ := List.mem_iff_get.1 hC
    exact ⟨j, hj, hCe ▸ hyC⟩
  refine ⟨h.counter_gt, h.ix_inj, h.vis_low, h.vis_keys, ?_, ?_, hsort_rest,
    ?_, ?_, ?_, ?_, ?_, ?_, ?_, ?_, hfr, ?_, ?_, ?_, ?_, ?_, ?_, ?_, ?_,
    ?_, ?_⟩
  · intro x
    show x ∈ eraseAll st1.onStack seg ↔ x ∈ rest
    rw [mem_eraseAll]
    constructor
    · rintro ⟨hon, hnseg⟩
      rcases (hmemstk x).1 ((h.on_eq x).1 hon) with h1 | h1
      · exact absurd h1 hnseg
      · exact h1
    · intro hx
      exact ⟨(h.on_eq x).2 (hreststk x hx), fun hs => hdisj hs hx⟩
  · intro x hx
    exact h.stk_vis x (hreststk x hx)
  · intro x hx
    rcases h.stk_split x hx with h1 | h1
    · rcases (hmemstk x).1 h1 with h2 | h2
      · refine Or.inr ?_
        show x ∈ (st1.sccs ++ [seg]).flatten
        simp only [List.flatten_append]
        simp [h2]
      · exact Or.inl h2
    · refine Or.inr ?_
      show x ∈ (st1.sccs ++ [seg]).flatten
      simp only [List.flatten_append]
      simp [h1]
  · intro x hx
    rw [show st2.sccs.flatten = st1.sccs.flatten ++ seg from by simp [hst2]] at hx
    rcases List.mem_append.1 hx with h1 | h1
    · exact h.emit_vis x h1
    · exact h.stk_vis x (hsegstk x h1)
  · intro x hx hxr
    rw [show st2.sccs.flatten = st1.sccs.flatten ++ seg from by simp [hst2]] at hx
    rcases List.mem_append.1 hx with h1 | h1
    · exact h.emit_off x h1 (hreststk x hxr)
    · exact hdisj h1 hxr
  · show (List.flatten (st1.sccs ++ [seg])).Nodup
    simp only [List.flatten_append]
    have : ([seg] : List (List V)).flatten = seg := by simp
    rw [this]
    refine List.nodup_append.2 ⟨h.join_nodup, hnd_seg, ?_⟩
    intro a ha has
    exact h.emit_off a ha (hsegstk a has)
  · intro C hC
    rcases List.mem_append.1 hC with h1 | h1
    · exact h.comp_ne C h1
    · have : C = seg := by simpa using h1
      rw [this, hseg]
      simp
  · intro x hx
    exact h.low_le x hx
  · intro x hx
    obtain ⟨y, hy, hyix, hre⟩ := h.low_reach x (hreststk x hx)
    have hyr : y ∈ rest := by
      rcases (hmemstk y).1 hy with h1 | h1
      · have h2 := hsegix y h1
        have h3 := h.low_le x (h.stk_vis x (hreststk x hx))
        have h4 := hrestix x hx
        omega
      · exact h1
    exact ⟨y, hyr, hyix, hre⟩
  · intro x hx y hy hle
    exact h.reach_up x (hreststk x hx) y (hreststk y hy) hle
  · have hs := h.wk_sorted
    simp only [List.map_cons] at hs
    exact (List.pairwise_cons.1 hs).2
  · intro f hf
    exact h.wk_rem f (List.mem_cons_of_mem _ hf)
  · have hc := h.wk_edge
    simp only [List.map_cons] at hc
    exact hc.tail
  · intro x hlast z hz
    cases ws with
    | nil => simp at hlast
    | cons q ws'' =>
      refine h.wk_bot x ?_ z (hreststk z hz)
      simp only [List.map_cons, List.getLast?_cons_cons]
      simpa using hlast
  · intro x hx hnf
    have hxv : x ≠ v := by
      intro he; rw [he] at hx; exact hdisj hvseg hx
    refine h.fin_low x (hreststk x hx) ?_
    intro hmem
    simp only [List.map_cons, List.mem_cons] at hmem
    rcases hmem with h1 | h1
    · exact hxv h1
    · exact hnf h1
  · intro x hx hnf
    have hxv : x ≠ v := by
      intro he; rw [he] at hx; exact hdisj hvseg hx
    have hxnf : x ∉ ((v, ([] : List V)) :: ws).map Prod.fst := by
      intro hmem
      simp only [List.map_cons, List.mem_cons] at hmem
      rcases hmem with h1 | h1
      · exact hxv h1
      · exact hnf h1
    obtain ⟨f, hf, hfix, hflo, hfmax⟩ := h.fin_chain x (hreststk x hx) hxnf
    simp only [List.map_cons, List.mem_cons] at hf
    rcases hf with hfv | hf1
    · rw [hfv] at hfix
      have := hrestix x hx
      omega
    · refine ⟨f, hf1, hfix, hflo, ?_⟩
      intro g hg hglt
      refine hfmax g ?_ hglt
      simp only [List.map_cons, List.mem_cons]
      exact Or.inr hg
  · intro v' rem' hmem adj pre' hadj hdecomp y hy
    obtain ⟨hv1, hv2⟩ := h.proc_frame v' rem' (List.mem_cons_of_mem _ hmem)
      adj pre' hadj hdecomp y hy
    exact ⟨hv1, fun hstk => hv2 (hreststk y hstk)⟩
  · intro x hvx hnf adj hadj y hy
    by_cases hxv : x = v
    · obtain ⟨hv1, hv2⟩ :=
        h.proc_frame v [] (by simp) adj adj (hxv ▸ hadj) (by simp) y hy
      refine ⟨hv1, fun hstk => ?_⟩
      rw [hxv]
      exact hv2 (hreststk y hstk)
    · have hxnf : x ∉ ((v, ([] : List V)) :: ws).map Prod.fst := by
        intro hmem
        simp only [List.map_cons, List.mem_cons] at hmem
        rcases hmem with h1 | h1
        · exact hxv h1
        · exact hnf h1
      obtain ⟨hv1, hv2⟩ := h.proc_done x hvx hxnf adj hadj y hy
      exact ⟨hv1, fun hstk => hv2 (hreststk y hstk)⟩
  · intro i hi x hx adj hadj y hy
    have hi' : i < st1.sccs.length + 1 := by
      rw [← hlenA]
      exact hi
    rcases Nat.lt_succ_iff_lt_or_eq.1 hi' with hilt | hieq
    · rw [hgetlt i hilt hi] at hx
      obtain ⟨j, hj, hji, hyj⟩ := h.emit_topo i hilt x hx adj hadj y hy
      refine ⟨j, by rw [hlenA]; omega, hji, ?_⟩
      rw [hgetlt j hj (by rw [hlenA]; omega)]
      exact hyj
    · subst hieq
      rw [hgetn hi] at hx
      obtain ⟨hyv, hybound⟩ := hproc x hx adj hadj y hy
      rcases h.stk_split y hyv with h1 | h1
      · rcases (hmemstk y).1 h1 with h2 | h2
        · refine ⟨st1.sccs.length, hi, le_refl _, ?_⟩
          rw [hgetn hi]
          exact h2
        · have hb := hybound h1
          have hlo := hseg_lo x hx
          have hyy := hrestix y h2
          omega
      · obtain ⟨j, hj, hyj⟩ := hidx y h1
        refine ⟨j, by rw [hlenA]; omega, le_of_lt hj, ?_⟩
        rw [hgetlt j hj (by rw [hlenA]; omega)]
        exact hyj
  · intro C hC x hx y hy
    rcases List.mem_append.1 hC with h1 | h1
    · exact h.emit_reach C h1 x hx y hy
    · have hCe : C = seg := by simpa using h1
      rw [hCe] at hx hy
      have hxv : Reaches G x v :=
        h.seg_reaches_root hem x (hsegstk x hx) (hsegix x hx)
      have hvy : Reaches G v y :=
        h.reach_up v hvstk y (hsegstk y hy) (hsegix y hy)
      exact hxv.trans hvy

theorem St.lo_eq {st : St V} {x : V} {n : Nat} (h : st.lowlink x = some n) :
    st.lo x = n := by
  unfold St.lo
  rw [h]
  rfl

theorem St.ix_eq {st : St V} {x : V} {n : Nat} (h : st.index x = some n) :
    st.ix x = n := by
  unfold St.ix
  rw [h]
  rfl

theorem vis_push_mono {st : St V} {w : V} {c : Nat} {x : V} (hx : st.vis x) :
    (St.vis { st with index := upd st.index w c,
                      lowlink := upd st.lowlink w c,
                      counter := st.counter + 1,
                      stack := w :: st.stack,
                      onStack := insert w st.onStack } x) := by
  by_cases hxw : x = w
  · simp [St.vis, upd, hxw]
  · simpa [St.vis, upd, hxw] using hx

/-- A successful inner-loop run carries the invariant to the empty work stack
and only ever adds indexed vertices. -/
theorem tarjanRun_inv {G : Graph V} :
    ∀ (fuel : Nat) (work : List (V × List V)) (st st' : St V),
      Inv G work st → tarjanRun G fuel work st = .ok st' →
      Inv G [] st' ∧ (∀ x, st.vis x → st'.vis x) := by
  intro fuel
  induction fuel with
  | zero =>
    intro work st st' hinv hrun
    cases work with
    | nil =>
      simp only [tarjanRun] at hrun
      cases hrun
      exact ⟨hinv, fun x hx => hx⟩
    | cons f ws => exact Except.noConfusion hrun
  | succ fuel ih =>
    intro work st st' hinv hrun
    cases work with
    | nil =>
      simp only [tarjanRun] at hrun
      cases hrun
      exact ⟨hinv, fun x hx => hx⟩
    | cons f ws =>
      obtain ⟨v, rem⟩ := f
      have hvstk : v ∈ st.stack := hinv.wk_stk v (by simp)
      have hvvis : st.vis v := hinv.stk_vis v hvstk
      obtain ⟨lv, hlv⟩ := Option.isSome_iff_exists.1 (hinv.stk_low_isSome hvstk)
      obtain ⟨iv, hiv⟩ := Option.isSome_iff_exists.1 hvvis
      have hlov : st.lo v = lv := by simp [St.lo, hlv]
      have hiov : st.ix v = iv := by simp [St.ix, hiv]
      cases rem with
      | nil =>
        simp only [tarjanRun] at hrun
        cases ws with
        | nil =>
          simp only [parentUpd] at hrun
          have hem : st.lo v = st.ix v := hinv.last_frame_emits
          have hceq : lv = iv := by rw [← hlov, ← hiov, hem]
          simp only [popStep, hlv, hiv, if_pos hceq] at hrun
          obtain ⟨pre, rest, hsplit, hvpre⟩ := mem_split_first hvstk
          rw [hsplit] at hrun
          simp only [popScc_spec pre rest hvpre] at hrun
          have hinv2 := hinv.pop_emit hem hsplit hvpre
          obtain ⟨hf, hm⟩ := ih [] _ st' hinv2 hrun
          exact ⟨hf, fun x hx => hm x hx⟩
        | cons q ws' =>
          obtain ⟨p, prem⟩ := q
          have hpstk : p ∈ st.stack := hinv.wk_stk p (by simp)
          obtain ⟨lp, hlp⟩ :=
            Option.isSome_iff_exists.1 (hinv.stk_low_isSome hpstk)
          simp only [parentUpd, hlp, hlv] at hrun
          set st1 : St V := { st with lowlink := upd st.lowlink p (min lp lv) }
            with hst1
          have hpv : p ≠ v := by
            have hs := hinv.wk_sorted
            simp only [List.map_cons] at hs
            have := (List.pairwise_cons.1 hs).1 p (by simp)
            intro he; rw [he] at this; exact lt_irrefl _ this
          have hinvp : Inv G ((v, []) :: (p, prem) :: ws') st1 :=
            hinv.parent_upd hlp hlv
          have hvp : v ≠ p := fun he => hpv he.symm
          have hlv1 : st1.lowlink v = some lv := by
            show upd st.lowlink p (min lp lv) v = some lv
            rw [upd_ne st.lowlink (min lp lv) hvp]
            exact hlv
          have hiv1 : st1.index v = some iv := hiv
          have hlov1 : st1.lo v = lv := St.lo_eq hlv1
          have hiov1 : st1.ix v = iv := St.ix_eq hiv1
          have hlop1 : st1.lo p = min lp lv := by
            show (upd st.lowlink p (min lp lv) p).getD 0 = min lp lv
            simp [upd]
          have hlv1' : upd st.lowlink p (min lp lv) v = some lv := by
            rw [upd_ne st.lowlink (min lp lv) hvp]
            exact hlv
          simp only [popStep, hlv1', hiv] at hrun
          by_cases hc : lv = iv
          · rw [if_pos hc] at hrun
            have hem : st1.lo v = st1.ix v := by rw [hlov1, hiov1, hc]
            have hvstk1 : v ∈ st1.stack := hvstk
            obtain ⟨pre, rest, hsplit, hvpre⟩ := mem_split_first hvstk1
            rw [show st1.stack = st.stack from rfl] at hsplit
            rw [hsplit] at hrun
            simp only [popScc_spec pre rest hvpre] at hrun
            have hsplit1 : st1.stack = pre ++ v :: rest := hsplit
            have hinv2 := hinvp.pop_emit hem hsplit1 hvpre
            obtain ⟨hf, hm⟩ := ih _ _ st' hinv2 hrun
            exact ⟨hf, fun x hx => hm x hx⟩
          · rw [if_neg hc] at hrun
            have hple : st1.lo p ≤ st1.lo v := by
              rw [hlop1, hlov1]; exact min_le_right _ _
            have hne1 : st1.lo v ≠ st1.ix v := by
              rw [hlov1, hiov1]; exact hc
            have hinv2 := hinvp.pop_noemit hple hne1
            obtain ⟨hf, hm⟩ := ih _ _ st' hinv2 hrun
            exact ⟨hf, fun x hx => hm x hx⟩
      | cons w rest =>
        simp only [tarjanRun] at hrun
        cases hidx : st.index w with
        | none =>
          simp only [hidx] at hrun
          cases hadj : alookup G w with
          | some adjw =>
            simp only [hadj] at hrun
            have hinv2 := hinv.push hidx hadj
            obtain ⟨hf, hm⟩ := ih _ _ st' hinv2 hrun
            exact ⟨hf, fun x hx => hm x (vis_push_mono hx)⟩
          | none =>
            simp only [hadj] at hrun
            exact Except.noConfusion hrun
        | some iw =>
          simp only [hidx] at hrun
          by_cases hmem : w ∈ st.onStack
          · rw [if_pos hmem] at hrun
            simp only [hlv] at hrun
            have hinv2 := hinv.minupd hidx hmem hlv
            obtain ⟨hf, hm⟩ := ih _ _ st' hinv2 hrun
            exact ⟨hf, fun x hx => hm x hx⟩
          · rw [if_neg hmem] at hrun
            have hwvis : st.vis w := by simp [St.vis, hidx]
            have hinv2 := hinv.advance hwvis hmem
            obtain ⟨hf, hm⟩ := ih _ _ st' hinv2 hrun
            exact ⟨hf, fun x hx => hm x hx⟩

end TarjanInv

section TarjanProgress

variable {V : Type} [DecidableEq V]

/-- Number of graph entries whose key has not been indexed yet. -/
def unvisitedCount (G : Graph V) (st : St V) : Nat :=
  G.countP (fun p => (st.index p.fst).isNone)

/-- Total size of the open iterator frames. -/
def workSum (work : List (V × List V)) : Nat :=
  (work.map (fun f => 1 + f.2.length)).sum

/-- Decreasing measure of the inner loop: one unit per loop iteration. -/
def mu (G : Graph V) (work : List (V × List V)) (st : St V) : Nat :=
  workSum work + (maxAdjLen G + 2) * unvisitedCount G st

theorem unvisited_upd_le (G : Graph V) (st : St V) (w : V) (c : Nat) :
    G.countP (fun p => ((upd st.index w c) p.fst).isNone) ≤
      G.countP (fun p => (st.index p.fst).isNone) := by
  refine List.countP_mono_left ?_
  intro p _ hp
  simp only [Option.isNone_iff_eq_none, decide_eq_true_eq] at hp ⊢
  by_cases hk : p.fst = w
  · rw [hk] at hp
    simp [upd] at hp
  · simpa [upd, hk] using hp

theorem unvisited_upd_lt {G : Graph V} {st : St V} {w : V} {c : Nat}
    (hmem : w ∈ gkeys G) (hnone : st.index w = none) :
    G.countP (fun p => ((upd st.index w c) p.fst).isNone) <
      G.countP (fun p => (st.index p.fst).isNone) := by
  induction G with
  | nil => simp [gkeys] at hmem
  | cons p rest ih =>
    obtain ⟨k, a⟩ := p
    by_cases hk : k = w
    · have hstep : List.countP (fun p => ((upd st.index w c) p.1).isNone) ((k, a) :: rest)
          = List.countP (fun p => ((upd st.index w c) p.1).isNone) rest := by
        rw [List.countP_cons]
        simp [upd, hk]
      have hstep2 : List.countP (fun p => ((st.index p.1).isNone : Bool)) ((k, a) :: rest)
          = List.countP (fun p => ((st.index p.1).isNone : Bool)) rest + 1 := by
        rw [List.countP_cons]
        simp [hk, hnone]
      rw [hstep, hstep2]
      have := unvisited_upd_le rest st w c
      omega
    · have hmem2 : w ∈ gkeys rest := by
        simp only [gkeys, List.map_cons, List.mem_cons] at hmem
        rcases hmem with h1 | h1
        · exact absurd h1.symm hk
        · exact h1
      have hlt := ih hmem2
      rw [List.countP_cons, List.countP_cons]
      have hcond : (((upd st.index w c) ((k, a) : V × List V).1).isNone : Bool)
          = ((st.index ((k, a) : V × List V).1).isNone : Bool) := by
        simp [upd, hk]
      simp only [hcond]
      cases hb : ((st.index ((k, a) : V × List V).1).isNone : Bool) <;> simp [hb] <;> omega

theorem unvisited_le (G : Graph V) (st : St V) :
    unvisitedCount G st ≤ G.length := by
  unfold unvisitedCount
  rw [List.countP_eq_length_filter]
  exact List.length_filter_le _ _

theorem workSum_cons (v : V) (rem : List V) (ws : List (V × List V)) :
    workSum ((v, rem) :: ws) = 1 + rem.length + workSum ws := by
  simp [workSum]

/-- On a closed graph, the inner loop runs to completion given fuel above
the measure: no lookup fails, no pop underflows, no fuel runs out. -/
theorem tarjanRun_progress {G : Graph V} (hcl : Closed G) :
    ∀ (fuel : Nat) (work : List (V × List V)) (st : St V),
      Inv G work st → mu G work st < fuel →
      ∃ st', tarjanRun G fuel work st = .ok st' := by
  intro fuel
  induction fuel with
  | zero =>
    intro work st _ hmu
    omega
  | succ fuel ih =>
    intro work st hinv hmu
    cases work with
    | nil => exact ⟨st, rfl⟩
    | cons f ws =>
      obtain ⟨v, rem⟩ := f
      have hvstk : v ∈ st.stack := hinv.wk_stk v (by simp)
      have hvvis : st.vis v := hinv.stk_vis v hvstk
      obtain ⟨lv, hlv⟩ := Option.isSome_iff_exists.1 (hinv.stk_low_isSome hvstk)
      obtain ⟨iv, hiv⟩ := Option.isSome_iff_exists.1 hvvis
      cases rem with
      | nil =>
        simp only [tarjanRun]
        cases ws with
        | nil =>
          simp only [parentUpd]
          have hem : st.lo v = st.ix v := hinv.last_frame_emits
          have hceq : lv = iv := by rw [← St.lo_eq hlv, ← St.ix_eq hiv, hem]
          simp only [popStep, hlv, hiv, if_pos hceq]
          obtain ⟨pre, rest, hsplit, hvpre⟩ := mem_split_first hvstk
          rw [hsplit]
          simp only [popScc_spec pre rest hvpre]
          refine ih [] _ (hinv.pop_emit hem hsplit hvpre) ?_
          have hu : unvisitedCount G
              { st with stack := rest, onStack := eraseAll st.onStack (pre ++ [v]),
                        sccs := st.sccs ++ [pre ++ [v]] } = unvisitedCount G st := rfl
          simp only [mu, hu, workSum_cons] at hmu ⊢
          simp only [workSum] at hmu ⊢
          omega
        | cons q ws' =>
          obtain ⟨p, prem⟩ := q
          have hpstk : p ∈ st.stack := hinv.wk_stk p (by simp)
          obtain ⟨lp, hlp⟩ :=
            Option.isSome_iff_exists.1 (hinv.stk_low_isSome hpstk)
          simp only [parentUpd, hlp, hlv]
          set st1 : St V := { st with lowlink := upd st.lowlink p (min lp lv) }
            with hst1
          have hpv : p ≠ v := by
            have hs := hinv.wk_sorted
            simp only [List.map_cons] at hs
            have := (List.pairwise_cons.1 hs).1 p (by simp)
            intro he; rw [he] at this; exact lt_irrefl _ this
          have hvp : v ≠ p := fun he => hpv he.symm
          have hinvp : Inv G ((v, []) :: (p, prem) :: ws') st1 :=
            hinv.parent_upd hlp hlv
          have hlv1' : upd st.lowlink p (min lp lv) v = some lv := by
            rw [upd_ne st.lowlink (min lp lv) hvp]
            exact hlv
          have hlv1 : st1.lowlink v = some lv := hlv1'
          have hlov1 : st1.lo v = lv := St.lo_eq hlv1
          have hiov1 : st1.ix v = iv := St.ix_eq hiv
          have hu1 : unvisitedCount G st1 = unvisitedCount G st := rfl
          simp only [popStep, hlv1', hiv]
          by_cases hc : lv = iv
          · rw [if_pos hc]
            have hem : st1.lo v = st1.ix v := by rw [hlov1, hiov1, hc]
            obtain ⟨pre, rest, hsplit, hvpre⟩ := mem_split_first hvstk
            have hsplit1 : st1.stack = pre ++ v :: rest := hsplit
            rw [show st.stack = st1.stack from rfl, hsplit1]
            simp only [popScc_spec pre rest hvpre]
            refine ih _ _ (hinvp.pop_emit hem hsplit1 hvpre) ?_
            have hu : unvisitedCount G
                { st1 with stack := rest,
                           onStack := eraseAll st1.onStack (pre ++ [v]),
                           sccs := st1.sccs ++ [pre ++ [v]] }
                = unvisitedCount G st := rfl
            simp only [mu, hu, workSum_cons] at hmu ⊢
            omega
          · rw [if_neg hc]
            have hple : st1.lo p ≤ st1.lo v := by
              have : st1.lo p = min lp lv := by
                show (upd st.lowlink p (min lp lv) p).getD 0 = min lp lv
                simp [upd]
              rw [this, hlov1]
              exact min_le_right _ _
            have hne1 : st1.lo v ≠ st1.ix v := by
              rw [hlov1, hiov1]; exact hc
            refine ih _ _ (hinvp.pop_noemit hple hne1) ?_
            simp only [mu, hu1, workSum_cons] at hmu ⊢
            omega
      | cons w rest =>
        have hwadjv : ∃ adj, alookup G v = some adj ∧ w ∈ adj := by
          obtain ⟨adj, hadj, hsuf⟩ := hinv.wk_rem (v, w :: rest) (by simp)
          exact ⟨adj, hadj, hsuf.mem (by simp)⟩
        have hwkeys : w ∈ gkeys G := by
          obtain ⟨adj, hadj, hwadj⟩ := hwadjv
          exact hcl (v, adj) (alookup_mem hadj) w hwadj
        simp only [tarjanRun]
        cases hidx : st.index w with
        | none =>
          simp only [hidx]
          obtain ⟨adjw, hadj⟩ :=
            Option.isSome_iff_exists.1 (alookup_isSome_of_mem hwkeys)
          simp only [hadj]
          refine ih _ _ (hinv.push hidx hadj) ?_
          have hult := unvisited_upd_lt (c := st.counter) hwkeys hidx
          have hadjle := alookup_length_le_maxAdjLen hadj
          have hu2 : unvisitedCount G
              { st with index := upd st.index w st.counter,
                        lowlink := upd st.lowlink w st.counter,
                        counter := st.counter + 1,
                        stack := w :: st.stack,
                        onStack := insert w st.onStack }
              = G.countP (fun p => ((upd st.index w st.counter) p.fst).isNone) := rfl
          have hu3 : unvisitedCount G st
              = G.countP (fun p => ((st.index) p.fst).isNone) := rfl
          have hmul : (maxAdjLen G + 2) *
                (G.countP (fun p => ((upd st.index w st.counter) p.fst).isNone) + 1)
              ≤ (maxAdjLen G + 2) * G.countP (fun p => ((st.index) p.fst).isNone) := by
            refine Nat.mul_le_mul_left _ ?_
            omega
          have hmul2 : (maxAdjLen G + 2) *
                (G.countP (fun p => ((upd st.index w st.counter) p.fst).isNone) + 1)
              = (maxAdjLen G + 2) *
                G.countP (fun p => ((upd st.index w st.counter) p.fst).isNone)
                + (maxAdjLen G + 2) := by
            ring
          simp only [mu, hu2, hu3, workSum_cons, List.length_cons] at hmu ⊢
          omega
        | some iw =>
          simp only [hidx]
          by_cases hmem : w ∈ st.onStack
          · rw [if_pos hmem]
            simp only [hlv]
            refine ih _ _ (hinv.minupd hidx hmem hlv) ?_
            have hu : unvisitedCount G
                { st with lowlink := upd st.lowlink v (min lv iw) }
                = unvisitedCount G st := rfl
            simp only [mu, hu, workSum_cons, List.length_cons] at hmu ⊢
            omega
          · rw [if_neg hmem]
            have hwvis : st.vis w := by simp [St.vis, hidx]
            refine ih _ _ (hinv.advance hwvis hmem) ?_
            simp only [mu, workSum_cons, List.length_cons] at hmu ⊢
            omega

end TarjanProgress

section TarjanOuter

variable {V : Type} [DecidableEq V]

/-- With no open frames remaining the Tarjan stack is empty. -/
theorem Inv.stack_nil {G : Graph V} {st : St V} (h : Inv G [] st) :
    st.stack = [] := by
  cases hs : st.stack with
  | nil => rfl
  | cons a s =>
    have ha : a ∈ st.stack := by rw [hs]; simp
    obtain ⟨f, hf, -⟩ := h.fin_chain a ha (by simp)
    simp at hf

/-- Starting a new phase: an unvisited root is indexed and pushed with a
single work frame. -/
theorem Inv.root_init {G : Graph V} {st : St V} {root : V} {adjr : List V}
    (h : Inv G [] st) (hidx : st.index root = none)
    (hadj : alookup G root = some adjr) :
    Inv G [(root, adjr)]
      { st with index := upd st.index root st.counter,
                lowlink := upd st.lowlink root st.counter,
                counter := st.counter + 1,
                stack := root :: st.stack,
                onStack := insert root st.onStack } := by
  have hstk := h.stack_nil
  set st' : St V :=
    { st with index := upd st.index root st.counter,
              lowlink := upd st.lowlink root st.counter,
              counter := st.counter + 1,
              stack := root :: st.stack,
              onStack := insert root st.onStack } with hst'
  have hnr : ¬ st.vis root := by simp [St.vis, hidx]
  have hixr : st'.ix root = st.counter := by simp [St.ix, hst', upd]
  have hvisr : st'.vis root := by simp [St.vis, hst', upd]
  have hlowr : st'.lo root = st.counter := by simp [St.lo, hst', upd]
  have hix : ∀ x, x ≠ root → st'.ix x = st.ix x := by
    intro x hx; simp [St.ix, hst', upd, hx]
  have hvis : ∀ x, x ≠ root → (st'.vis x ↔ st.vis x) := by
    intro x hx; simp [St.vis, hst', upd, hx]
  have hlo : ∀ x, x ≠ root → st'.lo x = st.lo x := by
    intro x hx; simp [St.lo, hst', upd, hx]
  have hvne : ∀ x, st.vis x → x ≠ root := fun x hx he => hnr (he ▸ hx)
  have hstk' : st'.stack = [root] := by rw [hst']; simp [hstk]
  have hmemstk : ∀ x, x ∈ st'.stack ↔ x = root := by
    intro x; rw [hstk']; simp
  refine ⟨?_, ?_, ?_, ?_, ?_, ?_, ?_, ?_, ?_, ?_, h.join_nodup, h.comp_ne,
    ?_, ?_, ?_, ?_, ?_, ?_, ?_, ?_, ?_, ?_, ?_, ?_, h.emit_topo, h.emit_reach⟩
  · intro x hx
    by_cases hxr : x = root
    · rw [hxr, hixr]
      simp [hst']
    · have := h.counter_gt x ((hvis x hxr).1 hx)
      rw [hix x hxr]
      simp [hst']
      omega
  · intro x y hx hy he
    by_cases hxr : x = root
    · by_cases hyr : y = root
      · rw [hxr, hyr]
      · have := h.counter_gt y ((hvis y hyr).1 hy)
        rw [hxr, hixr, hix y hyr] at he
        omega
    · by_cases hyr : y = root
      · have := h.counter_gt x ((hvis x hxr).1 hx)
        rw [hyr, hixr, hix x hxr] at he
        omega
      · exact h.ix_inj x y ((hvis x hxr).1 hx) ((hvis y hyr).1 hy)
          (by rw [← hix x hxr, ← hix y hyr]; exact he)
  · intro x
    by_cases hxr : x = root
    · rw [hxr]
      constructor
      · intro _; exact hvisr
      · intro _; simp [hst', upd]
    · have e1 : st'.lowlink x = st.lowlink x := by simp [hst', upd, hxr]
      have e2 : st'.index x = st.index x := by simp [hst', upd, hxr]
      show (st'.lowlink x).isSome ↔ (st'.index x).isSome
      rw [e1, e2]
      exact h.vis_low x
  · intro x hx
    by_cases hxr : x = root
    · rw [hxr]; exact mem_gkeys_of_alookup hadj
    · exact h.vis_keys x ((hvis x hxr).1 hx)
  · intro x
    simp only [hst', Finset.mem_insert, List.mem_cons]
    rw [h.on_eq x]
  · intro x hx
    rw [hmemstk x] at hx
    rw [hx]
    exact hvisr
  · rw [hstk']
    simp
  · intro x hx
    by_cases hxr : x = root
    · exact Or.inl ((hmemstk x).2 hxr)
    · rcases h.stk_split x ((hvis x hxr).1 hx) with h1 | h1
      · rw [hstk] at h1; simp at h1
      · exact Or.inr h1
  · intro x hx
    by_cases hxr : x = root
    · exact absurd (h.emit_vis x hx) (hxr ▸ hnr)
    · exact (hvis x hxr).2 (h.emit_vis x hx)
  · intro x hx hmem
    rw [hmemstk x] at hmem
    exact hvne x (h.emit_vis x hx) hmem
  · intro x hx
    by_cases hxr : x = root
    · rw [hxr, hlowr, hixr]
    · have hx0 := (hvis x hxr).1 hx
      rw [hlo x hxr, hix x hxr]
      exact h.low_le x hx0
  · intro x hx
    rw [hmemstk x] at hx
    refine ⟨root, (hmemstk root).2 rfl, ?_, ?_⟩
    · rw [hx, hixr, hlowr]
    · rw [hx]
      exact Relation.ReflTransGen.refl
  · intro x hx y hy _
    rw [hmemstk x] at hx
    rw [hmemstk y] at hy
    rw [hx, hy]
    exact Relation.ReflTransGen.refl
  · intro x hx
    simp only [List.map_cons, List.map_nil, List.mem_cons] at hx
    rcases hx with h1 | h1
    · exact (hmemstk x).2 h1
    · simp at h1
  · simp
  · intro f hf
    have : f = (root, adjr) := by simpa using hf
    rw [this]
    exact ⟨adjr, hadj, List.suffix_refl adjr⟩
  · simp
  · intro x hlast z hz
    have hxr : root = x := by simpa using hlast
    rw [hmemstk z] at hz
    rw [← hxr, hz]
  · intro x hx hnf
    rw [hmemstk x] at hx
    exact absurd (by simp [hx]) hnf
  · intro x hx hnf
    rw [hmemstk x] at hx
    exact absurd (by simp [hx]) hnf
  · intro v' rem' hmem adj pre hadj' hdecomp y hy
    have he : v' = root ∧ rem' = adjr := by
      have : (v', rem') = (root, adjr) := by simpa using hmem
      exact ⟨congrArg Prod.fst this, congrArg Prod.snd this⟩
    obtain ⟨he1, he2⟩ := he
    rw [he1] at hadj'
    rw [hadj] at hadj'
    injection hadj' with e3
    rw [← e3, he2] at hdecomp
    have hpre : pre = [] := by
      have := hdecomp.symm
      simpa using this
    rw [hpre] at hy
    simp at hy
  · intro x hvx hnf adj hadj' y hy
    have hxr : x ≠ root := by
      intro he; rw [he] at hnf; exact hnf (by simp)
    have hvx0 := (hvis x hxr).1 hvx
    obtain ⟨hv1, hv2⟩ := h.proc_done x hvx0 (by simp) adj hadj' y hy
    have hyr := hvne y hv1
    refine ⟨(hvis y hyr).2 hv1, fun hstk2 => ?_⟩
    rw [hmemstk y] at hstk2
    exact absurd hstk2 hyr

/-- A successful outer loop pass preserves the empty-work invariant, only
adds visited vertices, and leaves every listed root visited. -/
theorem tarjanOuter_inv {G : Graph V} {fuel : Nat} :
    ∀ (L : List (V × List V)) (st st' : St V),
      Inv G [] st → tarjanOuter G fuel L st = .ok st' →
      Inv G [] st' ∧ (∀ x, st.vis x → st'.vis x) ∧ (∀ p ∈ L, st'.vis p.1) := by
  intro L
  induction L with
  | nil =>
    intro st st' hinv hrun
    simp only [tarjanOuter] at hrun
    cases hrun
    exact ⟨hinv, fun x hx => hx, by simp⟩
  | cons q L ih =>
    intro st st' hinv hrun
    obtain ⟨root, adjr0⟩ := q
    simp only [tarjanOuter] at hrun
    cases hidx : st.index root with
    | some i0 =>
      simp only [hidx] at hrun
      obtain ⟨hf, hm, hl⟩ := ih st st' hinv hrun
      refine ⟨hf, hm, ?_⟩
      intro p hp
      rcases List.mem_cons.1 hp with h1 | h1
      · rw [h1]
        exact hm root (by simp [St.vis, hidx])
      · exact hl p h1
    | none =>
      simp only [hidx] at hrun
      cases hadj : alookup G root with
      | some adjr =>
        simp only [hadj] at hrun
        cases hrun2 : tarjanRun G fuel [(root, adjr)]
            { st with index := upd st.index root st.counter,
                      lowlink := upd st.lowlink root st.counter,
                      counter := st.counter + 1,
                      stack := root :: st.stack,
                      onStack := insert root st.onStack } with
        | ok st2 =>
          rw [hrun2] at hrun
          obtain ⟨hf2, hm2⟩ :=
            tarjanRun_inv fuel _ _ st2 (hinv.root_init hidx hadj) hrun2
          obtain ⟨hf, hm, hl⟩ := ih st2 st' hf2 hrun
          refine ⟨hf, ?_, ?_⟩
          · intro x hx
            exact hm x (hm2 x (vis_push_mono hx))
          · intro p hp
            rcases List.mem_cons.1 hp with h1 | h1
            · rw [h1]
              refine hm root (hm2 root ?_)
              simp [St.vis, upd]
            · exact hl p h1
        | error e =>
          rw [hrun2] at hrun
          exact Except.noConfusion hrun
      | none =>
        simp only [hadj] at hrun
        exact Except.noConfusion hrun

/-- On a closed graph, the whole outer loop succeeds with fuel `fuelFor G`. -/
theorem tarjanOuter_progress {G : Graph V} (hcl : Closed G) :
    ∀ (L : List (V × List V)) (st : St V),
      Inv G [] st → (∀ p ∈ L, p ∈ G) →
      ∃ st', tarjanOuter G (fuelFor G) L st = .ok st' := by
  intro L
  induction L with
  | nil =>
    intro st _ _
    exact ⟨st, rfl⟩
  | cons q L ih =>
    intro st hinv hsub
    obtain ⟨root, adjr0⟩ := q
    simp only [tarjanOuter]
    cases hidx : st.index root with
    | some i0 =>
      simp only [hidx]
      exact ih st hinv (fun p hp => hsub p (List.mem_cons_of_mem _ hp))
    | none =>
      simp only [hidx]
      have hrk : root ∈ gkeys G := by
        have := hsub (root, adjr0) (by simp)
        exact List.mem_map.2 ⟨(root, adjr0), this, rfl⟩
      obtain ⟨adjr, hadj⟩ :=
        Option.isSome_iff_exists.1 (alookup_isSome_of_mem hrk)
      simp only [hadj]
      have hinv1 := hinv.root_init hidx hadj
      have hadjle := alookup_length_le_maxAdjLen hadj
      have hule : unvisitedCount G
          { st with index := upd st.index root st.counter,
                    lowlink := upd st.lowlink root st.counter,
                    counter := st.counter + 1,
                    stack := root :: st.stack,
                    onStack := insert root st.onStack } ≤ G.length :=
        unvisited_le _ _
      have hmul : (maxAdjLen G + 2) * unvisitedCount G
            { st with index := upd st.index root st.counter,
                      lowlink := upd st.lowlink root st.counter,
                      counter := st.counter + 1,
                      stack := root :: st.stack,
                      onStack := insert root st.onStack }
          ≤ (maxAdjLen G + 2) * G.length :=
        Nat.mul_le_mul_left _ hule
      have hmu : mu G [(root, adjr)]
          { st with index := upd st.index root st.counter,
                    lowlink := upd st.lowlink root st.counter,
                    counter := st.counter + 1,
                    stack := root :: st.stack,
                    onStack := insert root st.onStack } < fuelFor G := by
        simp only [mu, workSum_cons, fuelFor] at hmul ⊢
        have : (maxAdjLen G + 2) * (G.length + 1)
            = (maxAdjLen G + 2) * G.length + (maxAdjLen G + 2) := by ring
        rw [this]
        simp only [workSum, List.map_nil, List.sum_nil]
        omega
      obtain ⟨st2, hrun⟩ := tarjanRun_progress hcl (fuelFor G) _ _ hinv1 hmu
      obtain ⟨hf2, -⟩ := tarjanRun_inv (fuelFor G) _ _ st2 hinv1 hrun
      obtain ⟨st', hrec⟩ := ih st2 hf2
        (fun p hp => hsub p (List.mem_cons_of_mem _ hp))
      refine ⟨st', ?_⟩
      rw [hrun]
      exact hrec

end TarjanOuter

section TarjanFinal

variable {V : Type} [DecidableEq V]

/-- The facts established about any successful run of `tarjan_sccs`. -/
structure TarjanFacts (G : Graph V) (comps : List (List V)) : Prop where
  mem_iff : ∀ x, x ∈ comps.flatten ↔ x ∈ gkeys G
  nodup : comps.flatten.Nodup
  nonempty : ∀ C ∈ comps, C ≠ []
  topo : ∀ i (hi : i < comps.length), ∀ x ∈ comps.get ⟨i, hi⟩, ∀ adj,
    alookup G x = some adj → ∀ y ∈ adj,
      ∃ j, ∃ hj : j < comps.length, j ≤ i ∧ y ∈ comps.get ⟨j, hj⟩
  reach : ∀ C ∈ comps, ∀ x ∈ C, ∀ y ∈ C, Reaches G x y

/-- Any `ok` result of `tarjan_sccs` satisfies all the final facts. -/
theorem tarjan_sccs_ok_facts {G : Graph V} {comps : List (List V)}
    (h : tarjan_sccs G = .ok comps) : TarjanFacts G comps := by
  unfold tarjan_sccs at h
  cases houter : tarjanOuter G (fuelFor G) G st0 with
  | error e =>
    rw [houter] at h
    exact Except.noConfusion h
  | ok stf =>
    rw [houter] at h
    have hcomps : stf.sccs = comps := by
      simpa [Except.map] using h
    obtain ⟨hf, -, hl⟩ := tarjanOuter_inv G st0 stf (Inv.init G) houter
    have hstk := hf.stack_nil
    subst hcomps
    refine ⟨?_, hf.join_nodup, hf.comp_ne, hf.emit_topo, hf.emit_reach⟩
    intro x
    constructor
    · intro hx
      exact hf.vis_keys x (hf.emit_vis x hx)
    · intro hx
      obtain ⟨p, hp, hpe⟩ := List.mem_map.1 hx
      have hvx : stf.vis x := hpe ▸ hl p hp
      rcases hf.stk_split x hvx with h1 | h1
      · rw [hstk] at h1
        simp at h1
      · exact h1

/-- On a closed graph `tarjan_sccs` returns a value: every dictionary lookup
succeeds, the component-collection loop never underflows, and the fuel
`fuelFor G` is enough for the iterative loop. -/
theorem tarjan_sccs_total {G : Graph V} (hcl : Closed G) :
    ∃ comps, tarjan_sccs G = .ok comps := by
  obtain ⟨st', hrun⟩ :=
    tarjanOuter_progress hcl G st0 (Inv.init G) (fun p hp => hp)
  refine ⟨st'.sccs, ?_⟩
  unfold tarjan_sccs
  rw [hrun]
  rfl

/-- In a flat-nodup list of components, each element determines its
component index uniquely. -/
theorem comp_index_unique {A : List (List V)} (hnd : A.flatten.Nodup)
    {i j : Nat} (hi : i < A.length) (hj : j < A.length) {x : V}
    (hxi : x ∈ A.get ⟨i, hi⟩) (hxj : x ∈ A.get ⟨j, hj⟩) : i = j := by
  have main : ∀ i j (hi : i < A.length) (hj : j < A.length), i < j →
      x ∈ A.get ⟨i, hi⟩ → x ∈ A.get ⟨j, hj⟩ → False := by
    intro i j hi hj hij hxi hxj
    have hnd2 := hnd
    rw [← List.take_append_drop (i+1) A, List.flatten_append] at hnd2
    have hdisj := (List.nodup_append.1 hnd2).2.2
    have hlen1 : i < (A.take (i+1)).length := by
      rw [List.length_take]
      omega
    have hmem1 : x ∈ (A.take (i+1)).flatten := by
      refine List.mem_flatten.2 ⟨(A.take (i+1)).get ⟨i, hlen1⟩, ?_, ?_⟩
      · exact List.get_mem _ _ _
      · have : (A.take (i+1)).get ⟨i, hlen1⟩ = A.get ⟨i, hi⟩ := by
          simp [List.getElem_take]
        rw [this]
        exact hxi
    have hlen2 : j - (i+1) < (A.drop (i+1)).length := by
      rw [List.length_drop]
      omega
    have hmem2 : x ∈ (A.drop (i+1)).flatten := by
      refine List.mem_flatten.2 ⟨(A.drop (i+1)).get ⟨j - (i+1), hlen2⟩, ?_, ?_⟩
      · exact List.get_mem _ _ _
      · have heq : (A.drop (i+1)).get ⟨j - (i+1), hlen2⟩
            = A.get ⟨(i+1) + (j - (i+1)), by omega⟩ := by
          simp [List.getElem_drop]
        have : (i+1) + (j - (i+1)) = j := by omega
        rw [heq]
        have hcast : A.get ⟨(i+1) + (j - (i+1)), by omega⟩ = A.get ⟨j, hj⟩ := by
          congr 1
          exact Fin.ext this
        rw [hcast]
        exact hxj
    exact hdisj hmem1 hmem2
  by_contra hne
  rcases Nat.lt_or_ge i j with h1 | h1
  · exact main i j hi hj h1 hxi hxj
  · rcases Nat.lt_or_ge j i with h2 | h2
    · exact main j i hj hi h2 hxj hxi
    · exact hne (by omega)

/-- Component index never increases along reachability. -/
theorem comp_reach_mono {G : Graph V} {comps : List (List V)}
    (hfacts : TarjanFacts G comps) {y z : V} (hre : Reaches G y z) :
    ∀ i (hi : i < comps.length), y ∈ comps.get ⟨i, hi⟩ →
      ∃ j, ∃ hj : j < comps.length, j ≤ i ∧ z ∈ comps.get ⟨j, hj⟩ := by
  induction hre using Relation.ReflTransGen.head_induction_on with
  | refl =>
    intro i hi hyi
    exact ⟨i, hi, le_refl i, hyi⟩
  | head hab hbc ih =>
    intro i hi hyi
    obtain ⟨adj, hadj, hmadj⟩ := hab
    obtain ⟨j1, hj1, hj1le, hmj1⟩ := hfacts.topo i hi _ hyi adj hadj _ hmadj
    obtain ⟨j2, hj2, hj2le, hmj2⟩ := ih j1 hj1 hmj1
    exact ⟨j2, hj2, le_trans hj2le hj1le, hmj2⟩

end TarjanFinal

section Driver

/-- A row of the `def JOIN source` query in `main`
(src/pysrc/summarize.py lines 139-144): `(usr, fully_qualified_name, text)`. -/
structure Row where
  usr : String
  fqn : String
  text : String

/-- The call-graph builder of `main` (src/pysrc/summarize.py lines 146-150,
src/crux_cpp/topo.py lines 86-90): start from `{usr: [] for usr in names}`
and append each call edge whose caller and callee are both in scope. -/
def buildGraph (ids : List String) (calls : List (String × String)) :
    Graph String :=
  calls.foldl
    (fun g c =>
      if c.1 ∈ ids ∧ c.2 ∈ ids then
        g.map (fun p => if p.1 = c.1 then (p.1, p.2 ++ [c.2]) else p)
      else g)
    (ids.map (fun u => (u, ([] : List String))))

theorem gkeys_mapUpd (g : Graph String) (k : String) (w : String) :
    gkeys (g.map (fun p => if p.1 = k then (p.1, p.2 ++ [w]) else p))
      = gkeys g := by
  unfold gkeys
  rw [List.map_map]
  congr 1
  funext p
  by_cases hp : p.1 = k <;> simp [hp]

theorem buildGraph_keys (ids : List String) (calls : List (String × String)) :
    gkeys (buildGraph ids calls) = ids := by
  unfold buildGraph
  suffices h : ∀ (cs : List (String × String)) (g : Graph String),
      gkeys (cs.foldl (fun g c =>
        if c.1 ∈ ids ∧ c.2 ∈ ids then
          g.map (fun p => if p.1 = c.1 then (p.1, p.2 ++ [c.2]) else p)
        else g) g) = gkeys g by
    rw [h]
    unfold gkeys
    rw [List.map_map]
    have hcomp : (Prod.fst ∘ fun u : String => (u, ([] : List String))) = id := rfl
    rw [hcomp, List.map_id]
  intro cs
  induction cs with
  | nil => intro g; rfl
  | cons c cs ih =>
    intro g
    simp only [List.foldl_cons]
    by_cases hc : c.1 ∈ ids ∧ c.2 ∈ ids
    · rw [if_pos hc, ih, gkeys_mapUpd]
    · rw [if_neg hc, ih]

theorem alookup_mapUpd (g : Graph String) (k w u : String) :
    alookup (g.map (fun p => if p.1 = k then (p.1, p.2 ++ [w]) else p)) u
      = if u = k then (alookup g u).map (fun a => a ++ [w])
        else alookup g u := by
  induction g with
  | nil => by_cases hu : u = k <;> simp [alookup, hu]
  | cons p g ih =>
    obtain ⟨k0, a0⟩ := p
    simp only [List.map_cons]
    by_cases hp : k0 = k
    · rw [if_pos hp]
      by_cases hu : u = k0
      · have huk : u = k := hu.trans hp
        simp only [alookup]
        rw [if_pos hu, if_pos huk, if_pos hu]
        rfl
      · have huk : ¬ u = k := fun he => hu (he.trans hp.symm)
        simp only [alookup]
        rw [if_neg hu, if_neg huk, if_neg hu, ih, if_neg huk]
    · rw [if_neg hp]
      by_cases hu : u = k0
      · have hunk : ¬ u = k := fun he => hp (by rw [← hu, he])
        simp only [alookup]
        rw [if_pos hu, if_neg hunk, if_pos hu]
      · simp only [alookup]
        rw [if_neg hu, if_neg hu, ih]

theorem alookup_none_of_not_mem {g : Graph String} {u : String}
    (h : u ∉ gkeys g) : alookup g u = none := by
  induction g with
  | nil => rfl
  | cons p g ih =>
    have h1 : ¬ u = p.1 := by
      intro he
      exact h (by simp [gkeys, he])
    have h2 : u ∉ gkeys g := by
      intro hm
      exact h (by simp [gkeys] at hm ⊢; exact Or.inr hm)
    obtain ⟨k0, a0⟩ := p
    simp only [alookup, if_neg h1]
    exact ih h2

theorem alookup_init (ids : List String) (u : String) (hu : u ∈ ids) :
    alookup (ids.map (fun v => (v, ([] : List String)))) u = some [] := by
  induction ids with
  | nil => simp at hu
  | cons a t ih =>
    by_cases hua : u = a
    · simp [alookup, hua]
    · have : u ∈ t := by
        rcases List.mem_cons.1 hu with h1 | h1
        · exact absurd h1 hua
        · exact h1
      simpa [alookup, hua] using ih this

/-- The adjacency list built for an in-scope `u` is exactly the list of
callees of in-scope call edges with caller `u`, in input order. -/
theorem buildGraph_adj (ids : List String) (calls : List (String × String))
    (u : String) (hu : u ∈ ids) :
    alookup (buildGraph ids calls) u
      = some ((calls.filter
          (fun c => decide (c.1 = u ∧ c.1 ∈ ids ∧ c.2 ∈ ids))).map
            (fun c => c.2)) := by
  unfold buildGraph
  suffices h : ∀ (cs : List (String × String)) (g : Graph String) (a : List String),
      alookup g u = some a →
      alookup (cs.foldl (fun g c =>
        if c.1 ∈ ids ∧ c.2 ∈ ids then
          g.map (fun p => if p.1 = c.1 then (p.1, p.2 ++ [c.2]) else p)
        else g) g) u
        = some (a ++ ((cs.filter
            (fun c => decide (c.1 = u ∧ c.1 ∈ ids ∧ c.2 ∈ ids))).map
              (fun c => c.2))) by
    have := h calls (ids.map (fun v => (v, ([] : List String)))) []
      (alookup_init ids u hu)
    simpa using this
  intro cs
  induction cs with
  | nil =>
    intro g a ha
    simpa using ha
  | cons c cs ih =>
    intro g a ha
    simp only [List.foldl_cons]
    by_cases hc : c.1 ∈ ids ∧ c.2 ∈ ids
    · rw [if_pos hc]
      by_cases hcu : c.1 = u
      · have hfilter : decide (c.1 = u ∧ c.1 ∈ ids ∧ c.2 ∈ ids) = true := by
          simp [hcu, hc.1, hc.2, hu]
        have hnew : alookup (g.map (fun p =>
            if p.1 = c.1 then (p.1, p.2 ++ [c.2]) else p)) u
            = some (a ++ [c.2]) := by
          rw [alookup_mapUpd, if_pos hcu.symm, ha]
          rfl
        rw [ih _ _ hnew, List.filter_cons]
        rw [if_pos hfilter]
        simp
      · have hfilter : ¬ (decide (c.1 = u ∧ c.1 ∈ ids ∧ c.2 ∈ ids) = true) := by
          simp [hcu]
        have hnew : alookup (g.map (fun p =>
            if p.1 = c.1 then (p.1, p.2 ++ [c.2]) else p)) u = some a := by
          rw [alookup_mapUpd, if_neg (fun he => hcu (he.symm)), ha]
        rw [ih _ _ hnew, List.filter_cons]
        rw [if_neg hfilter]
    · rw [if_neg hc]
      have hfilter : ¬ (decide (c.1 = u ∧ c.1 ∈ ids ∧ c.2 ∈ ids) = true) := by
        simp only [decide_eq_true_eq]
        intro hcon
        exact hc ⟨hcon.2.1, hcon.2.2⟩
      rw [ih _ _ ha, List.filter_cons]
      rw [if_neg hfilter]

/-- The built graph's edges are exactly the in-scope call pairs. -/
theorem buildGraph_edge_iff (ids : List String)
    (calls : List (String × String)) (u w : String) :
    EdgeG (buildGraph ids calls) u w ↔
      ((u, w) ∈ calls ∧ u ∈ ids ∧ w ∈ ids) := by
  constructor
  · rintro ⟨adj, hadj, hw⟩
    have hu : u ∈ ids := by
      have := mem_gkeys_of_alookup hadj
      rwa [buildGraph_keys] at this
    rw [buildGraph_adj ids calls u hu] at hadj
    injection hadj with he
    rw [← he] at hw
    obtain ⟨c, hc, hce⟩ := List.mem_map.1 hw
    have hcf := List.of_mem_filter hc
    simp only [decide_eq_true_eq] at hcf
    obtain ⟨hc1, -, hc3⟩ := hcf
    have hcm := List.mem_of_mem_filter hc
    have : c = (u, w) := by
      obtain ⟨cx, cy⟩ := c
      simp only at hc1 hce
      rw [hc1, hce]
    rw [this] at hcm
    rw [hce] at hc3
    exact ⟨hcm, hu, hc3⟩
  · rintro ⟨hcall, hu, hw⟩
    refine ⟨_, buildGraph_adj ids calls u hu, ?_⟩
    refine List.mem_map.2 ⟨(u, w), ?_, rfl⟩
    refine List.mem_filter.2 ⟨hcall, ?_⟩
    simp [hu, hw]

/-- The Graph Builder's output is closed: all adjacency entries are keys. -/
theorem buildGraph_closed (ids : List String)
    (calls : List (String × String)) :
    Closed (buildGraph ids calls) := by
  intro p hp w hw
  rw [buildGraph_keys]
  suffices h : ∀ (cs : List (String × String)) (g : Graph String),
      (∀ q ∈ g, ∀ z ∈ q.2, z ∈ ids) →
      ∀ q ∈ (cs.foldl (fun g c =>
        if c.1 ∈ ids ∧ c.2 ∈ ids then
          g.map (fun p => if p.1 = c.1 then (p.1, p.2 ++ [c.2]) else p)
        else g) g), ∀ z ∈ q.2, z ∈ ids by
    refine h calls _ ?_ p hp w hw
    intro q hq z hz
    obtain ⟨v, -, he⟩ := List.mem_map.1 hq
    rw [← he] at hz
    simp at hz
  intro cs
  induction cs with
  | nil =>
    intro g hg
    exact hg
  | cons c cs ih =>
    intro g hg
    simp only [List.foldl_cons]
    by_cases hc : c.1 ∈ ids ∧ c.2 ∈ ids
    · rw [if_pos hc]
      refine ih _ ?_
      intro q hq z hz
      obtain ⟨q0, hq0, he⟩ := List.mem_map.1 hq
      by_cases hqc : q0.1 = c.1
      · rw [if_pos hqc] at he
        rw [← he] at hz
        simp only at hz
        rcases List.mem_append.1 hz with h1 | h1
        · exact hg q0 hq0 z h1
        · have : z = c.2 := by simpa using h1
          rw [this]
          exact hc.2
      · rw [if_neg hqc] at he
        rw [← he] at hz
        exact hg q0 hq0 z hz
    · rw [if_neg hc]
      exact ih _ hg

/-- Failure modes of the driver loop: the pluggable enrichment function
raising, or a Python `KeyError` on a missing dict entry. -/
inductive DrvErr : Type where
  | enrichFail : DrvErr
  | keyErr : DrvErr
deriving DecidableEq

/-- Observable state of the driver: the `summary` table (an association list
keyed by usr), the usrs for which the enrichment function was invoked (in
order), and the pending error, if any. -/
structure DrvSt where
  store : List (String × String)
  log : List String
  err : Option DrvErr
deriving DecidableEq

/-- `INSERT OR REPLACE INTO summary (usr, summary) VALUES (?, ?)`
(src/pysrc/summarize.py lines 190-193), keyed by the primary key `usr`. -/
def upsert (s : List (String × String)) (k v : String) :
    List (String × String) :=
  if (alookup s k).isSome then
    s.map (fun p => if p.1 = k then (k, v) else p)
  else s ++ [(k, v)]

/-- `build_prompt` (src/pysrc/summarize.py lines 97-116). -/
def build_prompt (fqn text : String)
    (callee_summaries : List (String × String)) : String :=
  let lines1 : List String :=
    ["Summarize the following C++ function or method `" ++ fqn ++ "`.",
     "", "Source code:", "```cpp", text, "```"]
  let lines2 : List String :=
    if callee_summaries = [] then lines1
    else lines1 ++ ["", "Summaries of functions it calls:"] ++
      callee_summaries.map (fun p => "- `" ++ p.1 ++ "`: " ++ p.2)
  let lines3 := lines2 ++
    ["", "Write a concise one- or two-sentence summary describing what this function does."]
  String.intercalate "\n" lines3

/-- Context assembly (src/pysrc/summarize.py lines 173-185): walk the callees
of the current function in adjacency order; skip a callee in the same SCC;
otherwise include its `(fully_qualified_name, summary)` pair when the join of
the `def` and `summary` tables has a row for it. -/
def assembleContext (adj sccSet : List String)
    (names store : List (String × String)) : List (String × String) :=
  adj.filterMap (fun c =>
    if c ∈ sccSet then none
    else
      match alookup names c, alookup store c with
      | some cf, some cs => some (cf, cs)
      | _, _ => none)

/-- The body of the inner `for usr in scc:` loop of `main`
(src/pysrc/summarize.py lines 161-195): cache check unless `force`, context
assembly, invocation of the enrichment function (`summarize`), upsert and
commit.  A raised error stops all further processing. -/
def processOne (graph : Graph String) (names texts : List (String × String))
    (force : Bool) (enrich : String → Option String)
    (sccSet : List String) (st : DrvSt) (usr : String) : DrvSt :=
  if st.err.isSome then st
  else
    match alookup names usr with
    | none => { st with err := some DrvErr.keyErr }
    | some fqn =>
      if force = false ∧ (alookup st.store usr).isSome then st
      else
        match alookup graph usr, alookup texts usr with
        | some adj, some text =>
          let ctx := assembleContext adj sccSet names st.store
          let prompt := build_prompt fqn text ctx
          match enrich prompt with
          | some r =>
              { st with store := upsert st.store usr r, log := st.log ++ [usr] }
          | none =>
              { st with log := st.log ++ [usr], err := some DrvErr.enrichFail }
        | _, _ => { st with err := some DrvErr.keyErr }

/-- The nested `for scc in sccs: for usr in scc:` loops of `main`. -/
def driveSccs (graph : Graph String) (names texts : List (String × String))
    (force : Bool) (enrich : String → Option String)
    (sccs : List (List String)) (st : DrvSt) : DrvSt :=
  sccs.foldl
    (fun st scc => scc.foldl (processOne graph names texts force enrich scc) st)
    st

/-- The same iteration flattened into `(usr, its scc)` pairs. -/
def sccPairs (sccs : List (List String)) : List (String × List String) :=
  sccs.flatMap (fun scc => scc.map (fun u => (u, scc)))

/-- Folding `processOne` over explicit `(usr, scc)` pairs. -/
def drivePairs (graph : Graph String) (names texts : List (String × String))
    (force : Bool) (enrich : String → Option String)
    (ps : List (String × List String)) (st : DrvSt) : DrvSt :=
  ps.foldl (fun st p => processOne graph names texts force enrich p.2 st p.1) st

/-- The driver part of `main` (src/pysrc/summarize.py lines 121-198), with the
SQLite connection replaced by the in-memory store, the row and call-edge query
results passed in, and the `summarize` LLM call abstracted as `enrich`
(returning `none` models a raised exception). -/
def summarize_main (rows : List Row) (calls : List (String × String))
    (force : Bool) (enrich : String → Option String)
    (store0 : List (String × String)) : DrvSt :=
  let names := rows.map (fun r => (r.usr, r.fqn))
  let texts := rows.map (fun r => (r.usr, r.text))
  let graph := buildGraph (rows.map (fun r => r.usr)) calls
  match tarjan_sccs graph with
  | .error _ => { store := store0, log := [], err := some DrvErr.keyErr }
  | .ok sccs => driveSccs graph names texts force enrich sccs ⟨store0, [], none⟩

section DriverLemmas

theorem alookup_map_self {s : List (String × String)} {k v a : String}
    (ha : alookup s k = some a) :
    alookup (s.map (fun p => if p.1 = k then (k, v) else p)) k = some v := by
  induction s with
  | nil => simp [alookup] at ha
  | cons p t ih =>
    obtain ⟨k0, a0⟩ := p
    simp only [List.map_cons]
    by_cases hk0 : k0 = k
    · rw [if_pos hk0]
      simp [alookup]
    · rw [if_neg hk0]
      have hkk : ¬ k = k0 := fun he => hk0 he.symm
      simp only [alookup, if_neg hkk] at ha ⊢
      exact ih ha

theorem alookup_map_ne {s : List (String × String)} {k k' : String}
    (hkk : ¬ k = k') (v : String) :
    alookup (s.map (fun p => if p.1 = k' then (k', v) else p)) k
      = alookup s k := by
  induction s with
  | nil => rfl
  | cons p t ih =>
    obtain ⟨k0, a0⟩ := p
    simp only [List.map_cons]
    by_cases hk0 : k0 = k'
    · rw [if_pos hk0]
      have h1 : ¬ k = k0 := fun he => hkk (he.trans hk0)
      simp only [alookup, if_neg hkk, if_neg h1]
      exact ih
    · rw [if_neg hk0]
      by_cases hke : k = k0
      · simp only [alookup, if_pos hke]
      · simp only [alookup, if_neg hke]
        exact ih

theorem alookup_append_left {s t : List (String × String)} {k a : String}
    (ha : alookup s k = some a) : alookup (s ++ t) k = some a := by
  induction s with
  | nil => simp [alookup] at ha
  | cons p r ih =>
    obtain ⟨k0, a0⟩ := p
    rw [List.cons_append]
    by_cases hke : k = k0
    · simp only [alookup, if_pos hke] at ha ⊢
      exact ha
    · simp only [alookup, if_neg hke] at ha ⊢
      exact ih ha

theorem alookup_append_self {s : List (String × String)} {k v : String}
    (hnone : alookup s k = none) : alookup (s ++ [(k, v)]) k = some v := by
  induction s with
  | nil => simp [alookup]
  | cons p t ih =>
    obtain ⟨k0, a0⟩ := p
    rw [List.cons_append]
    by_cases hke : k = k0
    · simp only [alookup, if_pos hke] at hnone
      exact Option.noConfusion hnone
    · simp only [alookup, if_neg hke] at hnone ⊢
      exact ih hnone

theorem upsert_self (s : List (String × String)) (k v : String) :
    alookup (upsert s k v) k = some v := by
  unfold upsert
  by_cases hs : (alookup s k).isSome
  · rw [if_pos hs]
    obtain ⟨a, ha⟩ := Option.isSome_iff_exists.1 hs
    exact alookup_map_self ha
  · rw [if_neg hs]
    exact alookup_append_self (Option.not_isSome_iff_eq_none.1 hs)

theorem upsert_pres {s : List (String × String)} {k : String}
    (hk : (alookup s k).isSome) (k' v : String) :
    (alookup (upsert s k' v) k).isSome := by
  by_cases hkk : k = k'
  · rw [hkk, upsert_self]
    rfl
  · unfold upsert
    by_cases hs : (alookup s k').isSome
    · rw [if_pos hs, alookup_map_ne hkk]
      exact hk
    · rw [if_neg hs]
      obtain ⟨a, ha⟩ := Option.isSome_iff_exists.1 hk
      rw [alookup_append_left ha]
      rfl

theorem processOne_err_some {graph : Graph String}
    {names texts : List (String × String)} {force : Bool}
    {enrich : String → Option String} {sccSet : List String} {st : DrvSt}
    {usr : String} (h : st.err.isSome) :
    processOne graph names texts force enrich sccSet st usr = st := by
  unfold processOne
  rw [if_pos h]

theorem processOne_cases (graph : Graph String)
    (names texts : List (String × String)) (force : Bool)
    (enrich : String → Option String) (sccSet : List String) (st : DrvSt)
    (usr : String) :
    (processOne graph names texts force enrich sccSet st usr = st) ∨
    (∃ r, (enrich (build_prompt ((alookup names usr).getD "")
        ((alookup texts usr).getD "")
        (assembleContext ((alookup graph usr).getD []) sccSet names st.store))
          = some r) ∧
      processOne graph names texts force enrich sccSet st usr
        = { st with store := upsert st.store usr r, log := st.log ++ [usr] }) ∨
    (processOne graph names texts force enrich sccSet st usr
        = { st with log := st.log ++ [usr], err := some DrvErr.enrichFail }) ∨
    (processOne graph names texts force enrich sccSet st usr
        = { st with err := some DrvErr.keyErr }) := by
  unfold processOne
  by_cases he : st.err.isSome
  · rw [if_pos he]
    exact Or.inl rfl
  · rw [if_neg he]
    cases hn : alookup names usr with
    | none =>
      simp only [hn]
      exact Or.inr (Or.inr (Or.inr (by trivial)))
    | some fqn =>
      simp only [hn]
      by_cases hskip : force = false ∧ (alookup st.store usr).isSome
      · rw [if_pos hskip]
        exact Or.inl rfl
      · rw [if_neg hskip]
        cases hg : alookup graph usr with
        | none =>
          simp only [hg]
          exact Or.inr (Or.inr (Or.inr (by trivial)))
        | some adj =>
          cases ht : alookup texts usr with
          | none =>
            simp only [ht]
            exact Or.inr (Or.inr (Or.inr (by trivial)))
          | some text =>
            simp only [ht]
            cases hen : enrich (build_prompt fqn text
                (assembleContext adj sccSet names st.store)) with
            | some r =>
              simp only [hen]
              refine Or.inr (Or.inl ⟨r, ?_, by trivial⟩)
              exact hen
            | none =>
              simp only [hen]
              exact Or.inr (Or.inr (Or.inl (by trivial)))

theorem processOne_err_mono {graph : Graph String}
    {names texts : List (String × String)} {force : Bool}
    {enrich : String → Option String} {sccSet : List String} {st : DrvSt}
    {usr : String}
    (h : (processOne graph names texts force enrich sccSet st usr).err = none) :
    st.err = none := by
  rcases processOne_cases graph names texts force enrich sccSet st usr with
    h1 | ⟨r, -, h1⟩ | h1 | h1 <;> rw [h1] at h
  · exact h
  · exact h
  · simp at h
  · simp at h

theorem processOne_log (graph : Graph String)
    (names texts : List (String × String)) (force : Bool)
    (enrich : String → Option String) (sccSet : List String) (st : DrvSt)
    (usr : String) :
    (processOne graph names texts force enrich sccSet st usr).log = st.log ∨
    (processOne graph names texts force enrich sccSet st usr).log
      = st.log ++ [usr] := by
  rcases processOne_cases graph names texts force enrich sccSet st usr with
    h1 | ⟨r, -, h1⟩ | h1 | h1 <;> rw [h1]
  · exact Or.inl rfl
  · exact Or.inr rfl
  · exact Or.inr rfl
  · exact Or.inl rfl

theorem processOne_store_pres {graph : Graph String}
    {names texts : List (String × String)} {force : Bool}
    {enrich : String → Option String} {sccSet : List String} {st : DrvSt}
    {usr k : String} (h : (alookup st.store k).isSome) :
    (alookup (processOne graph names texts force enrich sccSet st usr).store
      k).isSome := by
  rcases processOne_cases graph names texts force enrich sccSet st usr with
    h1 | ⟨r, -, h1⟩ | h1 | h1 <;> rw [h1]
  · exact h
  · exact upsert_pres h usr r
  · exact h
  · exact h

theorem processOne_present {graph : Graph String}
    {names texts : List (String × String)} {force : Bool}
    {enrich : String → Option String} {sccSet : List String} {st : DrvSt}
    {usr : String} (h0 : st.err = none)
    (h : (processOne graph names texts force enrich sccSet st usr).err = none) :
    (alookup (processOne graph names texts force enrich sccSet st usr).store
      usr).isSome := by
  unfold processOne at h ⊢
  rw [if_neg (by rw [h0]; simp)] at h ⊢
  cases hn : alookup names usr with
  | none =>
    simp only [hn] at h
    simp at h
  | some fqn =>
    simp only [hn] at h ⊢
    by_cases hskip : force = false ∧ (alookup st.store usr).isSome
    · rw [if_pos hskip] at h ⊢
      exact hskip.2
    · rw [if_neg hskip] at h ⊢
      cases hg : alookup graph usr with
      | none =>
        simp only [hg] at h
        simp at h
      | some adj =>
        simp only [hg] at h ⊢
        cases ht : alookup texts usr with
        | none =>
          simp only [ht] at h
          simp at h
        | some text =>
          simp only [ht] at h ⊢
          cases hen : enrich (build_prompt fqn text
              (assembleContext adj sccSet names st.store)) with
          | some r =>
            simp only [hen] at h ⊢
            rw [upsert_self]
            rfl
          | none =>
            simp only [hen] at h
            simp at h

variable {graph : Graph String} {names texts : List (String × String)}
  {force : Bool} {enrich : String → Option String}

theorem drivePairs_err_some {ps : List (String × List String)} {st : DrvSt}
    (h : st.err.isSome) :
    drivePairs graph names texts force enrich ps st = st := by
  induction ps generalizing st with
  | nil => rfl
  | cons q ps ih =>
    show drivePairs graph names texts force enrich ps
      (processOne graph names texts force enrich q.2 st q.1) = st
    rw [processOne_err_some h]
    exact ih h

theorem drivePairs_err_mono {ps : List (String × List String)} {st : DrvSt}
    (h : (drivePairs graph names texts force enrich ps st).err = none) :
    st.err = none := by
  induction ps generalizing st with
  | nil => exact h
  | cons q ps ih =>
    have h1 : (drivePairs graph names texts force enrich ps
        (processOne graph names texts force enrich q.2 st q.1)).err = none := h
    exact processOne_err_mono (ih h1)

theorem drivePairs_store_pres {ps : List (String × List String)} {st : DrvSt}
    {k : String} (h : (alookup st.store k).isSome) :
    (alookup (drivePairs graph names texts force enrich ps st).store
      k).isSome := by
  induction ps generalizing st with
  | nil => exact h
  | cons q ps ih =>
    exact ih (processOne_store_pres h)

theorem drivePairs_present {ps : List (String × List String)} {st : DrvSt}
    (h : (drivePairs graph names texts force enrich ps st).err = none) :
    ∀ p ∈ ps,
      (alookup (drivePairs graph names texts force enrich ps st).store
        p.1).isSome := by
  induction ps generalizing st with
  | nil => simp
  | cons q ps ih =>
    intro p hp
    have hrw : drivePairs graph names texts force enrich (q :: ps) st
        = drivePairs graph names texts force enrich ps
            (processOne graph names texts force enrich q.2 st q.1) := rfl
    rw [hrw] at h ⊢
    rcases List.mem_cons.1 hp with h1 | h1
    · have hst1 : (processOne graph names texts force enrich q.2 st q.1).err
          = none := drivePairs_err_mono h
      have hst0 : st.err = none := processOne_err_mono hst1
      have hpres := processOne_present hst0 hst1
      rw [h1]
      exact drivePairs_store_pres hpres
    · exact ih h p h1

theorem drivePairs_log {ps : List (String × List String)} {st : DrvSt} :
    ∃ l, (drivePairs graph names texts force enrich ps st).log = st.log ++ l ∧
      l.Sublist (ps.map Prod.fst) := by
  induction ps generalizing st with
  | nil => exact ⟨[], by simp [drivePairs], by simp⟩
  | cons q ps ih =>
    have hrw : drivePairs graph names texts force enrich (q :: ps) st
        = drivePairs graph names texts force enrich ps
            (processOne graph names texts force enrich q.2 st q.1) := rfl
    rw [hrw]
    obtain ⟨l1, hl1, hsub⟩ :=
      @ih (processOne graph names texts force enrich q.2 st q.1)
    rcases processOne_log graph names texts force enrich q.2 st q.1 with
      hlog | hlog
    · refine ⟨l1, by rw [hl1, hlog], ?_⟩
      exact hsub.cons q.1
    · refine ⟨q.1 :: l1, ?_, ?_⟩
      · rw [hl1, hlog]
        simp
      · exact hsub.cons₂ q.1

theorem scc_fold_eq (sccSet : List String) :
    ∀ (scc : List String) (st : DrvSt),
      scc.foldl (processOne graph names texts force enrich sccSet) st
        = drivePairs graph names texts force enrich
            (scc.map (fun u => (u, sccSet))) st := by
  intro scc
  induction scc with
  | nil => intro st; rfl
  | cons u scc ih =>
    intro st
    exact ih _

theorem driveSccs_eq_drivePairs (sccs : List (List String)) (st : DrvSt) :
    driveSccs graph names texts force enrich sccs st
      = drivePairs graph names texts force enrich (sccPairs sccs) st := by
  induction sccs generalizing st with
  | nil => rfl
  | cons scc sccs ih =>
    have h1 : driveSccs graph names texts force enrich (scc :: sccs) st
        = driveSccs graph names texts force enrich sccs
            (scc.foldl (processOne graph names texts force enrich scc) st) :=
      rfl
    rw [h1, ih, scc_fold_eq]
    have h2 : sccPairs (scc :: sccs)
        = scc.map (fun u => (u, scc)) ++ sccPairs sccs := by
      simp [sccPairs]
    rw [h2]
    unfold drivePairs
    rw [List.foldl_append]

theorem sccPairs_map_fst (sccs : List (List String)) :
    (sccPairs sccs).map Prod.fst = sccs.flatten := by
  induction sccs with
  | nil => rfl
  | cons scc sccs ih =>
    have h2 : sccPairs (scc :: sccs)
        = scc.map (fun u => (u, scc)) ++ sccPairs sccs := by
      simp [sccPairs]
    rw [h2, List.map_append, ih, List.map_map]
    have : (Prod.fst ∘ fun u : String => (u, scc)) = id := rfl
    rw [this, List.map_id]
    rfl

theorem processOne_skip {sccSet : List String} {st : DrvSt} {usr : String}
    (h0 : st.err = none) (hn : (alookup names usr).isSome)
    (hs : (alookup st.store usr).isSome) :
    processOne graph names texts false enrich sccSet st usr = st := by
  unfold processOne
  rw [if_neg (by rw [h0]; simp)]
  obtain ⟨fqn, hfqn⟩ := Option.isSome_iff_exists.1 hn
  simp only [hfqn]
  rw [if_pos ⟨trivial, hs⟩]

theorem drivePairs_skip {ps : List (String × List String)} {st : DrvSt}
    (h0 : st.err = none)
    (hp : ∀ p ∈ ps,
      (alookup names p.1).isSome ∧ (alookup st.store p.1).isSome) :
    drivePairs graph names texts false enrich ps st = st := by
  induction ps with
  | nil => rfl
  | cons q ps ih =>
    have hrw : drivePairs graph names texts false enrich (q :: ps) st
        = drivePairs graph names texts false enrich ps
            (processOne graph names texts false enrich q.2 st q.1) := rfl
    rw [hrw, processOne_skip h0 (hp q (by simp)).1 (hp q (by simp)).2]
    exact ih (fun p hps => hp p (List.mem_cons_of_mem _ hps))

theorem processOne_force (sccSet : List String) {st : DrvSt} {usr : String}
    (h0 : st.err = none) (hn : (alookup names usr).isSome)
    (hg : (alookup graph usr).isSome) (ht : (alookup texts usr).isSome)
    (he : ∀ p, (enrich p).isSome) :
    (processOne graph names texts true enrich sccSet st usr).err = none ∧
    (processOne graph names texts true enrich sccSet st usr).log
      = st.log ++ [usr] ∧
    (processOne graph names texts true enrich sccSet st usr).store
      = upsert st.store usr
          ((enrich (build_prompt ((alookup names usr).getD "")
            ((alookup texts usr).getD "")
            (assembleContext ((alookup graph usr).getD []) sccSet names
              st.store))).getD "") := by
  unfold processOne
  rw [if_neg (by rw [h0]; simp)]
  obtain ⟨fqn, hfqn⟩ := Option.isSome_iff_exists.1 hn
  obtain ⟨adj, hadj⟩ := Option.isSome_iff_exists.1 hg
  obtain ⟨text, htext⟩ := Option.isSome_iff_exists.1 ht
  simp only [hfqn, hadj, htext]
  rw [if_neg (by simp)]
  obtain ⟨r, hr⟩ := Option.isSome_iff_exists.1
    (he (build_prompt fqn text (assembleContext adj sccSet names st.store)))
  simp only [hr]
  refine ⟨h0, by trivial, ?_⟩
  simp only [hfqn, hadj, htext, Option.getD_some]
  rw [hr]
  rfl

theorem drivePairs_force {ps : List (String × List String)} {st : DrvSt}
    (he : ∀ p, (enrich p).isSome)
    (hks : ∀ p ∈ ps, (alookup names p.1).isSome ∧
      (alookup graph p.1).isSome ∧ (alookup texts p.1).isSome)
    (h0 : st.err = none) :
    (drivePairs graph names texts true enrich ps st).err = none ∧
    (drivePairs graph names texts true enrich ps st).log
      = st.log ++ ps.map Prod.fst := by
  induction ps generalizing st with
  | nil => exact ⟨h0, by simp [drivePairs]⟩
  | cons q ps ih =>
    have hq := hks q (by simp)
    obtain ⟨herr, hlog, -⟩ :=
      processOne_force q.2 h0 hq.1 hq.2.1 hq.2.2 he
    have hrw : drivePairs graph names texts true enrich (q :: ps) st
        = drivePairs graph names texts true enrich ps
            (processOne graph names texts true enrich q.2 st q.1) := rfl
    rw [hrw]
    obtain ⟨herr2, hlog2⟩ :=
      ih (fun p hps => hks p (List.mem_cons_of_mem _ hps)) herr
    refine ⟨herr2, ?_⟩
    rw [hlog2, hlog]
    simp

theorem processOne_fail {sccSet : List String} {st : DrvSt} {usr : String}
    (h0 : st.err = none)
    (h : (processOne graph names texts force enrich sccSet st usr).err
      = some DrvErr.enrichFail) :
    (processOne graph names texts force enrich sccSet st usr).store = st.store ∧
    (processOne graph names texts force enrich sccSet st usr).log
      = st.log ++ [usr] := by
  rcases processOne_cases graph names texts force enrich sccSet st usr with
    h1 | ⟨r, -, h1⟩ | h1 | h1 <;> rw [h1] at h ⊢
  · rw [h0] at h
    exact Option.noConfusion h
  · have h2 : st.err = some DrvErr.enrichFail := h
    rw [h0] at h2
    exact Option.noConfusion h2
  · exact ⟨rfl, rfl⟩
  · have h2 : some DrvErr.keyErr = some DrvErr.enrichFail := h
    injection h2 with he
    exact DrvErr.noConfusion he

theorem drivePairs_abort {ps : List (String × List String)} {st0 : DrvSt}
    (h0 : st0.err = none)
    (h : (drivePairs graph names texts force enrich ps st0).err
      = some DrvErr.enrichFail) :
    ∃ pre uf post, ps = pre ++ uf :: post ∧
      (drivePairs graph names texts force enrich pre st0).err = none ∧
      (drivePairs graph names texts force enrich ps st0).store
        = (drivePairs graph names texts force enrich pre st0).store ∧
      (drivePairs graph names texts force enrich ps st0).log
        = (drivePairs graph names texts force enrich pre st0).log
          ++ [uf.1] := by
  induction ps generalizing st0 with
  | nil =>
    rw [show drivePairs graph names texts force enrich [] st0 = st0 from rfl,
      h0] at h
    exact Option.noConfusion h
  | cons q ps ih =>
    have hrw : drivePairs graph names texts force enrich (q :: ps) st0
        = drivePairs graph names texts force enrich ps
            (processOne graph names texts force enrich q.2 st0 q.1) := rfl
    set st1 : DrvSt := processOne graph names texts force enrich q.2 st0 q.1
      with hst1
    cases hst1e : st1.err with
    | none =>
      rw [hrw] at h
      obtain ⟨pre, uf, post, hsplit, hpree, hstoree, hloge⟩ := ih hst1e h
      refine ⟨q :: pre, uf, post, by simp [hsplit], ?_, ?_, ?_⟩
      · show (drivePairs graph names texts force enrich pre st1).err = none
        exact hpree
      · rw [hrw]
        exact hstoree
      · rw [hrw]
        exact hloge
    | some e =>
      have hstop : drivePairs graph names texts force enrich ps st1 = st1 :=
        drivePairs_err_some (by rw [hst1e]; rfl)
      rw [hrw, hstop] at h ⊢
      have hfail : st1.err = some DrvErr.enrichFail := h
      obtain ⟨hstore, hlog⟩ := processOne_fail h0 hfail
      refine ⟨[], q, ps, rfl, h0, ?_, ?_⟩
      · show st1.store = st0.store
        exact hstore
      · show st1.log = st0.log ++ [q.1]
        exact hlog

end DriverLemmas

section DriverMore

theorem alookup_append_single_ne (s : List (String × String)) {k w : String}
    (hkw : ¬ k = w) (v : String) :
    alookup (s ++ [(w, v)]) k = alookup s k := by
  induction s with
  | nil =>
    show (if k = w then some v else alookup ([] : List (String × String)) k)
        = alookup ([] : List (String × String)) k
    rw [if_neg hkw]
  | cons p t ih =>
    obtain ⟨k0, a0⟩ := p
    rw [List.cons_append]
    show (if k = k0 then some a0 else alookup (t ++ [(w, v)]) k)
        = (if k = k0 then some a0 else alookup t k)
    rw [ih]

theorem alookup_upsert_ne {s : List (String × String)} {k w : String}
    (hkw : ¬ k = w) (v : String) :
    alookup (upsert s w v) k = alookup s k := by
  unfold upsert
  by_cases hs : (alookup s w).isSome
  · rw [if_pos hs]
    exact alookup_map_ne hkw v
  · rw [if_neg hs]
    exact alookup_append_single_ne s hkw v

theorem assembleContext_filter (adj sccSet : List String)
    (ns store : List (String × String)) :
    assembleContext adj sccSet ns store
      = assembleContext (adj.filter (fun x => decide (x ∉ sccSet))) sccSet
          ns store := by
  induction adj with
  | nil => rfl
  | cons a adj ih =>
    rw [List.filter_cons]
    by_cases ha : a ∈ sccSet
    · rw [if_neg (by simp [ha])]
      have hstep : assembleContext (a :: adj) sccSet ns store
          = assembleContext adj sccSet ns store := by
        unfold assembleContext
        simp only [List.filterMap_cons]
        rw [if_pos ha]
      rw [hstep]
      exact ih
    · rw [if_pos (by simp [ha])]
      unfold assembleContext
      simp only [List.filterMap_cons]
      rw [if_neg ha]
      cases hn2 : alookup ns a with
      | none => exact ih
      | some cf =>
        cases hs2 : alookup store a with
        | none => exact ih
        | some cs => exact congrArg (fun l => (cf, cs) :: l) ih

theorem assembleContext_upsert_scc (adj sccSet : List String)
    (ns store : List (String × String)) {c : String} (hc : c ∈ sccSet)
    (r : String) :
    assembleContext adj sccSet ns (upsert store c r)
      = assembleContext adj sccSet ns store := by
  induction adj with
  | nil => rfl
  | cons a adj ih =>
    unfold assembleContext
    simp only [List.filterMap_cons]
    by_cases ha : a ∈ sccSet
    · rw [if_pos ha, if_pos ha]
      exact ih
    · rw [if_neg ha, if_neg ha]
      have hne : ¬ a = c := fun he => ha (he ▸ hc)
      rw [alookup_upsert_ne hne r]
      cases hn2 : alookup ns a with
      | none =>
        cases hs2 : alookup store a with
        | none => exact ih
        | some cs => exact ih
      | some cf =>
        cases hs2 : alookup store a with
        | none => exact ih
        | some cs => exact congrArg (fun l => (cf, cs) :: l) ih

theorem summarize_main_eq (rows : List Row) (calls : List (String × String))
    (force : Bool) (enrich : String → Option String)
    (store0 : List (String × String)) :
    summarize_main rows calls force enrich store0
      = match tarjan_sccs (buildGraph (rows.map (fun r => r.usr)) calls) with
        | .error _ => { store := store0, log := [], err := some DrvErr.keyErr }
        | .ok sccs =>
            driveSccs (buildGraph (rows.map (fun r => r.usr)) calls)
              (rows.map (fun r => (r.usr, r.fqn)))
              (rows.map (fun r => (r.usr, r.text))) force enrich sccs
              ⟨store0, [], none⟩ := rfl

theorem scc_usr_lookups {rows : List Row} {calls : List (String × String)}
    {comps : List (List String)}
    (hok : tarjan_sccs (buildGraph (rows.map (fun r => r.usr)) calls)
      = .ok comps)
    {p : String × List String} (hp : p ∈ sccPairs comps) :
    (alookup (rows.map (fun r => (r.usr, r.fqn))) p.1).isSome ∧
    (alookup (buildGraph (rows.map (fun r => r.usr)) calls) p.1).isSome ∧
    (alookup (rows.map (fun r => (r.usr, r.text))) p.1).isSome := by
  have facts := tarjan_sccs_ok_facts hok
  have h1 : p.1 ∈ comps.flatten := by
    rw [← sccPairs_map_fst]
    exact List.mem_map.2 ⟨p, hp, rfl⟩
  have h2 : p.1 ∈ gkeys (buildGraph (rows.map (fun r => r.usr)) calls) :=
    (facts.mem_iff p.1).1 h1
  have h3 : p.1 ∈ rows.map (fun r => r.usr) := by
    rwa [buildGraph_keys] at h2
  refine ⟨?_, alookup_isSome_of_mem h2, ?_⟩
  · apply alookup_isSome_of_mem
    rw [List.map_map]
    exact h3
  · apply alookup_isSome_of_mem
    rw [List.map_map]
    exact h3

end DriverMore

end Driver

section Claims

/-- C1: for every finite directed graph and every edge u→v in it, if
`tarjan_sccs` places u and v in different output components, then the
component containing v appears at a strictly smaller index in the returned
sequence than the component containing u (callee-first topological order of
the condensation). -/
theorem tarjan_topo_order {V : Type} [DecidableEq V] {G : Graph V}
    {comps : List (List V)} (hok : tarjan_sccs G = .ok comps) (u w : V)
    (he : EdgeG G u w) (i j : Nat) (hi : i < comps.length)
    (hj : j < comps.length) (hu : u ∈ comps.get ⟨i, hi⟩)
    (hw : w ∈ comps.get ⟨j, hj⟩) (hne : i ≠ j) : j < i := by
  have facts := tarjan_sccs_ok_facts hok
  obtain ⟨adj, hadj, hmadj⟩ := he
  obtain ⟨j2, hj2, hle, hmem⟩ := facts.topo i hi u hu adj hadj w hmadj
  have hjj : j2 = j := comp_index_unique facts.nodup hj2 hj hmem hw
  omega

/-- Witness for C1: on the chain 0→1 the component of 1 (index 0) precedes
the component of 0 (index 1). -/
theorem tarjan_topo_order_witness : (0 : Nat) < 1 :=
  tarjan_topo_order
    (rfl : tarjan_sccs [((0 : Nat), [1]), (1, [])] = Except.ok [[1], [0]])
    0 1 ⟨[1], rfl, by decide⟩ 1 0 (by decide) (by decide) (by decide)
    (by decide) (by decide)

/-- C2: for every finite directed graph, the sequence of components returned
by `tarjan_sccs` is a partition of the input vertex set: every component is
non-empty, no vertex is duplicated, the union of the components equals the
key set of the input mapping, and a vertex determines its component index
uniquely (pairwise disjointness). -/
theorem tarjan_partition {V : Type} [DecidableEq V] {G : Graph V}
    {comps : List (List V)} (hok : tarjan_sccs G = .ok comps) :
    (∀ C ∈ comps, C ≠ []) ∧ comps.flatten.Nodup ∧
    (∀ x, x ∈ comps.flatten ↔ x ∈ gkeys G) ∧
    ∀ i j (hi : i < comps.length) (hj : j < comps.length) (x : V),
      x ∈ comps.get ⟨i, hi⟩ → x ∈ comps.get ⟨j, hj⟩ → i = j := by
  have facts := tarjan_sccs_ok_facts hok
  exact ⟨facts.nonempty, facts.nodup, facts.mem_iff,
    fun i j hi hj x hxi hxj => comp_index_unique facts.nodup hi hj hxi hxj⟩

/-- Witness for C2: the flattened output on the chain 0→1 has no
duplicates. -/
theorem tarjan_partition_witness :
    ([[1], [0]] : List (List Nat)).flatten.Nodup :=
  (tarjan_partition
    (rfl : tarjan_sccs [((0 : Nat), [1]), (1, [])] = Except.ok [[1], [0]])
    ).2.1

/-- C3: context assembly excludes every callee that lies in the same strongly
connected component as the current function: the assembled context equals the
one computed from the adjacency list with all same-component callees removed,
and persisting a result for a same-component callee (as a prior run or a
forced re-run of an earlier member would) leaves the assembled context
unchanged. -/
theorem context_same_scc_excluded (adj sccSet : List String)
    (ns store : List (String × String)) (c : String) (hc : c ∈ sccSet)
    (r : String) :
    assembleContext adj sccSet ns store
      = assembleContext (adj.filter (fun x => decide (x ∉ sccSet))) sccSet
          ns store ∧
    assembleContext adj sccSet ns (upsert store c r)
      = assembleContext adj sccSet ns store :=
  ⟨assembleContext_filter adj sccSet ns store,
    assembleContext_upsert_scc adj sccSet ns store hc r⟩

/-- Witness for C3: with component {a, b}, the callee b of the current
function is excluded from the context even though the store has a result for
it, and overwriting b's stored result does not change the context. -/
theorem context_same_scc_excluded_witness :
    assembleContext ["b", "x"] ["a", "b"] [("b", "B"), ("x", "X")]
        [("x", "rx"), ("b", "rb")]
      = assembleContext ((["b", "x"] : List String).filter
          (fun x => decide (x ∉ (["a", "b"] : List String)))) ["a", "b"]
          [("b", "B"), ("x", "X")] [("x", "rx"), ("b", "rb")] ∧
    assembleContext ["b", "x"] ["a", "b"] [("b", "B"), ("x", "X")]
        (upsert [("x", "rx"), ("b", "rb")] "b" "r2")
      = assembleContext ["b", "x"] ["a", "b"] [("b", "B"), ("x", "X")]
          [("x", "rx"), ("b", "rb")] :=
  context_same_scc_excluded ["b", "x"] ["a", "b"] [("b", "B"), ("x", "X")]
    [("x", "rx"), ("b", "rb")] "b" (by decide) "r2"

/-- C4: idempotence of the driver: after one complete run with force=false,
running again with force=false on the resulting store (with any enrichment
function at all) invokes the enrichment function zero times (the invocation
log is empty) and leaves every persisted result byte-identical (the store is
returned unchanged). -/
theorem driver_idempotent (rows : List Row) (calls : List (String × String))
    (enrich enrich2 : String → Option String)
    (store0 : List (String × String))
    (h1 : (summarize_main rows calls false enrich store0).err = none) :
    summarize_main rows calls false enrich2
        (summarize_main rows calls false enrich store0).store
      = ⟨(summarize_main rows calls false enrich store0).store, [], none⟩ := by
  obtain ⟨comps, hok⟩ :=
    tarjan_sccs_total (buildGraph_closed (rows.map (fun r => r.usr)) calls)
  have hrun1 : summarize_main rows calls false enrich store0
      = drivePairs (buildGraph (rows.map (fun r => r.usr)) calls)
          (rows.map (fun r => (r.usr, r.fqn)))
          (rows.map (fun r => (r.usr, r.text))) false enrich
          (sccPairs comps) ⟨store0, [], none⟩ := by
    rw [summarize_main_eq]
    simp only [hok]
    rw [driveSccs_eq_drivePairs]
  have herr1 : (drivePairs (buildGraph (rows.map (fun r => r.usr)) calls)
      (rows.map (fun r => (r.usr, r.fqn)))
      (rows.map (fun r => (r.usr, r.text))) false enrich
      (sccPairs comps) ⟨store0, [], none⟩).err = none := by
    rw [← hrun1]
    exact h1
  have hrun2 : ∀ s2 : List (String × String),
      summarize_main rows calls false enrich2 s2
        = drivePairs (buildGraph (rows.map (fun r => r.usr)) calls)
            (rows.map (fun r => (r.usr, r.fqn)))
            (rows.map (fun r => (r.usr, r.text))) false enrich2
            (sccPairs comps) ⟨s2, [], none⟩ := by
    intro s2
    rw [summarize_main_eq]
    simp only [hok]
    rw [driveSccs_eq_drivePairs]
  rw [hrun1, hrun2]
  refine drivePairs_skip rfl ?_
  intro p hp
  exact ⟨(scc_usr_lookups hok hp).1, drivePairs_present herr1 p hp⟩

/-- Witness for C4: a second force=false run over a one-function store is the
identity and calls nothing. -/
theorem driver_idempotent_witness :
    summarize_main [⟨"a", "A", "ta"⟩] [] false (fun _ => some "s2")
        (summarize_main [⟨"a", "A", "ta"⟩] [] false (fun _ => some "s")
          []).store
      = ⟨(summarize_main [⟨"a", "A", "ta"⟩] [] false (fun _ => some "s")
          []).store, [], none⟩ :=
  driver_idempotent [⟨"a", "A", "ta"⟩] [] (fun _ => some "s")
    (fun _ => some "s2") [] rfl

/-- C5: if the enrichment function fails, the run aborts at the failing
function: the processed pairs split as pre ++ failing :: rest, the prefix ran
without error, the final store equals the store after the prefix (every
result committed before the failure is durably persisted and unchanged, each
committed individually), and the log shows the failing function was the last
one invoked — nothing after it was processed. -/
theorem driver_abort_persists (rows : List Row)
    (calls : List (String × String)) (force : Bool)
    (enrich : String → Option String) (store0 : List (String × String))
    (h : (summarize_main rows calls force enrich store0).err
      = some DrvErr.enrichFail) :
    ∃ sccs pre uf post,
      tarjan_sccs (buildGraph (rows.map (fun r => r.usr)) calls)
        = .ok sccs ∧
      sccPairs sccs = pre ++ uf :: post ∧
      (drivePairs (buildGraph (rows.map (fun r => r.usr)) calls)
        (rows.map (fun r => (r.usr, r.fqn)))
        (rows.map (fun r => (r.usr, r.text))) force enrich pre
        ⟨store0, [], none⟩).err = none ∧
      (summarize_main rows calls force enrich store0).store
        = (drivePairs (buildGraph (rows.map (fun r => r.usr)) calls)
            (rows.map (fun r => (r.usr, r.fqn)))
            (rows.map (fun r => (r.usr, r.text))) force enrich pre
            ⟨store0, [], none⟩).store ∧
      (summarize_main rows calls force enrich store0).log
        = (drivePairs (buildGraph (rows.map (fun r => r.usr)) calls)
            (rows.map (fun r => (r.usr, r.fqn)))
            (rows.map (fun r => (r.usr, r.text))) force enrich pre
            ⟨store0, [], none⟩).log ++ [uf.1] := by
  rw [summarize_main_eq] at h
  cases htj : tarjan_sccs (buildGraph (rows.map (fun r => r.usr)) calls) with
  | error e =>
    simp only [htj] at h
    have h2 : some DrvErr.keyErr = some DrvErr.enrichFail := h
    injection h2 with h3
    exact DrvErr.noConfusion h3
  | ok sccs =>
    simp only [htj] at h
    rw [driveSccs_eq_drivePairs] at h
    obtain ⟨pre, uf, post, hsplit, hpree, hstore, hlog⟩ :=
      drivePairs_abort rfl h
    refine ⟨sccs, pre, uf, post, rfl, hsplit, hpree, ?_, ?_⟩
    · rw [summarize_main_eq]
      simp only [htj]
      rw [driveSccs_eq_drivePairs]
      exact hstore
    · rw [summarize_main_eq]
      simp only [htj]
      rw [driveSccs_eq_drivePairs]
      exact hlog

/-- Witness for C5: a run whose enrichment function always fails aborts at
the very first function with the store intact. -/
theorem driver_abort_persists_witness :
    ∃ sccs pre uf post,
      tarjan_sccs (buildGraph (([⟨"a", "A", "ta"⟩] : List Row).map
          (fun r => r.usr)) []) = .ok sccs ∧
      sccPairs sccs = pre ++ uf :: post ∧
      (drivePairs (buildGraph (([⟨"a", "A", "ta"⟩] : List Row).map
          (fun r => r.usr)) [])
        (([⟨"a", "A", "ta"⟩] : List Row).map (fun r => (r.usr, r.fqn)))
        (([⟨"a", "A", "ta"⟩] : List Row).map (fun r => (r.usr, r.text)))
        false (fun _ => none) pre ⟨[], [], none⟩).err = none ∧
      (summarize_main [⟨"a", "A", "ta"⟩] [] false (fun _ => none) []).store
        = (drivePairs (buildGraph (([⟨"a", "A", "ta"⟩] : List Row).map
              (fun r => r.usr)) [])
            (([⟨"a", "A", "ta"⟩] : List Row).map (fun r => (r.usr, r.fqn)))
            (([⟨"a", "A", "ta"⟩] : List Row).map (fun r => (r.usr, r.text)))
            false (fun _ => none) pre ⟨[], [], none⟩).store ∧
      (summarize_main [⟨"a", "A", "ta"⟩] [] false (fun _ => none) []).log
        = (drivePairs (buildGraph (([⟨"a", "A", "ta"⟩] : List Row).map
              (fun r => r.usr)) [])
            (([⟨"a", "A", "ta"⟩] : List Row).map (fun r => (r.usr, r.fqn)))
            (([⟨"a", "A", "ta"⟩] : List Row).map (fun r => (r.usr, r.text)))
            false (fun _ => none) pre ⟨[], [], none⟩).log ++ [uf.1] :=
  driver_abort_persists [⟨"a", "A", "ta"⟩] [] false (fun _ => none) [] rfl

/-- C6: Graph Builder contract: the built call graph's key set equals the
given identifier list (every in-scope identifier is a key, even with an
empty adjacency list and even if nothing calls it), and its edges are
exactly the call pairs whose caller and callee are both in-scope — edges to
external callees are dropped, and no input is an error. -/
theorem graph_builder_contract (ids : List String)
    (calls : List (String × String)) :
    gkeys (buildGraph ids calls) = ids ∧
    ∀ u w, EdgeG (buildGraph ids calls) u w ↔
      ((u, w) ∈ calls ∧ u ∈ ids ∧ w ∈ ids) :=
  ⟨buildGraph_keys ids calls, fun u w => buildGraph_edge_iff ids calls u w⟩

/-- C7: a vertex of the input graph forms a singleton component with no
self-loop edge if and only if it participates in no cycle of the graph. -/
theorem tarjan_singleton_iff_no_cycle {V : Type} [DecidableEq V]
    {G : Graph V} {comps : List (List V)} (hok : tarjan_sccs G = .ok comps)
    (x : V) (hx : x ∈ gkeys G) :
    ((∀ C ∈ comps, x ∈ C → C = [x]) ∧ ¬ EdgeG G x x) ↔ ¬ OnCycle G x := by
  have facts := tarjan_sccs_ok_facts hok
  have hxf : x ∈ comps.flatten := (facts.mem_iff x).2 hx
  obtain ⟨C0, hC0, hxC0⟩ := List.mem_flatten.1 hxf
  obtain ⟨⟨i, hi⟩, hCi⟩ := List.mem_iff_get.1 hC0
  constructor
  · rintro ⟨hsing, hself⟩ hcyc
    obtain ⟨b, hxb, hbx⟩ := Relation.TransGen.head'_iff.1 hcyc
    obtain ⟨adj, hadj, hmadj⟩ := hxb
    have hxi : x ∈ comps.get ⟨i, hi⟩ := by
      rw [hCi]
      exact hxC0
    obtain ⟨j, hj, hji, hbj⟩ := facts.topo i hi x hxi adj hadj b hmadj
    obtain ⟨k, hk, hkj, hxk⟩ := comp_reach_mono facts hbx j hj hbj
    have hki : k = i := comp_index_unique facts.nodup hk hi hxk hxi
    have hij : j = i := by omega
    subst hij
    have hbC0 : b ∈ C0 := by
      rw [← hCi]
      exact hbj
    have hC0x : C0 = [x] := hsing C0 hC0 hxC0
    rw [hC0x] at hbC0
    have hbeq : b = x := by simpa using hbC0
    rw [hbeq] at hmadj
    exact hself ⟨adj, hadj, hmadj⟩
  · intro hnc
    refine ⟨?_, fun hself => hnc (Relation.TransGen.single hself)⟩
    intro C hC hxC
    have hCnd : C.Nodup :=
      List.Nodup.sublist (List.sublist_flatten_of_mem hC) facts.nodup
    have hyx : ∀ y ∈ C, y = x := by
      intro y hy
      by_contra hne
      have h1 : Reaches G x y := facts.reach C hC x hxC y hy
      have h2 : Reaches G y x := facts.reach C hC y hy x hxC
      rcases Relation.ReflTransGen.cases_head h1 with heq | ⟨b, hxb, hby⟩
      · exact hne heq.symm
      · exact hnc (Relation.TransGen.head' hxb (hby.trans h2))
    cases C with
    | nil => simp at hxC
    | cons c rest =>
      have hcx : c = x := hyx c (by simp)
      cases rest with
      | nil => rw [hcx]
      | cons d rest2 =>
        have hdx : d = x := hyx d (by simp)
        rw [hcx, hdx] at hCnd
        simp at hCnd

/-- Witness for C7: vertex 0 of the chain 0→1 is acyclic and sits in the
singleton component [0]. -/
theorem tarjan_singleton_iff_no_cycle_witness :
    ((∀ C ∈ ([[1], [0]] : List (List Nat)), (0 : Nat) ∈ C → C = [0]) ∧
      ¬ EdgeG [((0 : Nat), [1]), (1, [])] 0 0)
      ↔ ¬ OnCycle [((0 : Nat), [1]), (1, [])] 0 :=
  tarjan_singleton_iff_no_cycle
    (rfl : tarjan_sccs [((0 : Nat), [1]), (1, [])] = Except.ok [[1], [0]])
    0 (by decide)

/-- C8: in any single run of the driver over real inputs, the enrichment
function is invoked at most once per identifier (the invocation log counts
every identifier at most once); when force is set and the enrichment
function never fails, it is invoked for exactly the in-scope identifiers
(the log contains an identifier precisely when it is an in-scope one). -/
theorem driver_call_counts (rows : List Row) (calls : List (String × String))
    (force : Bool) (enrich : String → Option String)
    (store0 : List (String × String)) :
    (∀ usr,
      (summarize_main rows calls force enrich store0).log.count usr ≤ 1) ∧
    ((∀ p, (enrich p).isSome) →
      ∀ usr, (usr ∈ (summarize_main rows calls true enrich store0).log ↔
        usr ∈ rows.map (fun r => r.usr))) := by
  obtain ⟨comps, hok⟩ :=
    tarjan_sccs_total (buildGraph_closed (rows.map (fun r => r.usr)) calls)
  have facts := tarjan_sccs_ok_facts hok
  constructor
  · intro usr
    rw [summarize_main_eq]
    simp only [hok]
    rw [driveSccs_eq_drivePairs]
    obtain ⟨l, hl, hsub⟩ :=
      @drivePairs_log (buildGraph (rows.map (fun r => r.usr)) calls)
        (rows.map (fun r => (r.usr, r.fqn)))
        (rows.map (fun r => (r.usr, r.text))) force enrich
        (sccPairs comps) ⟨store0, [], none⟩
    rw [hl]
    have hnd : l.Nodup := by
      refine List.Nodup.sublist ?_ facts.nodup
      rw [← sccPairs_map_fst]
      exact hsub
    simpa using List.nodup_iff_count_le_one.1 hnd usr
  · intro he usr
    rw [summarize_main_eq]
    simp only [hok]
    rw [driveSccs_eq_drivePairs]
    obtain ⟨-, hlog⟩ :=
      @drivePairs_force (buildGraph (rows.map (fun r => r.usr)) calls)
        (rows.map (fun r => (r.usr, r.fqn)))
        (rows.map (fun r => (r.usr, r.text))) enrich
        (sccPairs comps) ⟨store0, [], none⟩ he
        (fun p hp => scc_usr_lookups hok hp) rfl
    rw [hlog]
    constructor
    · intro hmem
      have h1 : usr ∈ comps.flatten := by
        rw [← sccPairs_map_fst]
        simpa using hmem
      have h2 := (facts.mem_iff usr).1 h1
      rwa [buildGraph_keys] at h2
    · intro hmem
      have h2 : usr ∈ gkeys (buildGraph (rows.map (fun r => r.usr)) calls) :=
        by rw [buildGraph_keys]; exact hmem
      have h3 : usr ∈ comps.flatten := (facts.mem_iff usr).2 h2
      rw [← sccPairs_map_fst] at h3
      simpa using h3

/-- C9: implicit precondition of `tarjan_sccs`: on a closed input mapping
(every identifier in an adjacency list is itself a key) every dictionary
lookup and stack pop succeeds and a value is returned; the input
\x7b0: [1]\x7d, whose neighbour 1 is not a key, fails with a KeyError; and
the Graph Builder's output always satisfies the closedness precondition. -/
theorem tarjan_closed_precondition {V : Type} [DecidableEq V] (G : Graph V)
    (hcl : Closed G) (ids : List String) (calls : List (String × String)) :
    (∃ comps, tarjan_sccs G = .ok comps) ∧
    tarjan_sccs [((0 : Nat), [1])] = .error TjErr.keyError ∧
    Closed (buildGraph ids calls) :=
  ⟨tarjan_sccs_total hcl, rfl, buildGraph_closed ids calls⟩

/-- Witness for C9: the self-loop graph \x7b5: [5]\x7d is closed and
decomposes; \x7b0: [1]\x7d raises KeyError; the graph built from one record
with a self-call is closed. -/
theorem tarjan_closed_precondition_witness :
    (∃ comps, tarjan_sccs [((5 : Nat), [5])] = .ok comps) ∧
    tarjan_sccs [((0 : Nat), [1])] = .error TjErr.keyError ∧
    Closed (buildGraph ["a"] [("a", "a")]) :=
  tarjan_closed_precondition [((5 : Nat), [5])] (by unfold Closed; decide)
    ["a"] [("a", "a")]

/-- C10: implicit termination: on every finite closed input graph the
iterative work-stack loop of `tarjan_sccs` terminates — the fuel
`fuelFor G`, which bounds each vertex to one push and each edge to one
iterator advance, is never exhausted — so `tarjan_sccs` returns a value and
in particular never the out-of-fuel marker of the embedding. -/
theorem tarjan_terminates {V : Type} [DecidableEq V] (G : Graph V)
    (hcl : Closed G) :
    ∃ comps, tarjan_sccs G = .ok comps ∧
      tarjan_sccs G ≠ .error TjErr.outOfFuel := by
  obtain ⟨comps, hok⟩ := tarjan_sccs_total hcl
  refine ⟨comps, hok, ?_⟩
  rw [hok]
  intro hcon
  exact Except.noConfusion hcon

/-- Witness for C10: the two-cycle 0→1→0 is closed and the loop terminates
on it. -/
theorem tarjan_terminates_witness :
    ∃ comps, tarjan_sccs [((0 : Nat), [1]), (1, [0])] = .ok comps ∧
      tarjan_sccs [((0 : Nat), [1]), (1, [0])] ≠ .error TjErr.outOfFuel :=
  tarjan_terminates [((0 : Nat), [1]), (1, [0])] (by unfold Closed; decide)

end Claims

end CruxCpp
